import Mathlib

/-!
Memory-region utilities of GUB_GEECS (`common/MemoryUtils`).

A shallow embedding of the seven macro templates of
`memory_function_macro_templates.h`, instantiated in `utils.h` for the four
element types `uint8_t` (Byte), `uint16_t` (Word), `uint32_t` (Dword) and
`uint64_t` (Qword).

Modelling choices.
* Memory is a total map from addresses to bytes.  Addresses are mathematical
  integers: pointer arithmetic is exact (it never wraps), the null pointer is
  address `0`.
* An element of `sizeof T` bytes is read and written through `load` and
  `store` in little-endian byte order.
* Each C loop is a recursive function of the same shape, its termination
  measure being the distance between the running pointer and the end pointer.
-/

namespace MemoryUtils

/-- One byte of memory. -/
abbrev Octet := Fin 256

/-- Byte-addressed memory. -/
abbrev Mem := Int → Octet

/-- The four `(TYPE, TYPE_NAME)` pairs the templates are instantiated with in `utils.h`. -/
inductive ElemType where
  | Byte
  | Word
  | Dword
  | Qword
  deriving DecidableEq, Repr

/-- Value of `sizeof(TYPE)` in bytes. -/
def ElemType.sizeof : ElemType → Nat
  | .Byte => 1
  | .Word => 2
  | .Dword => 4
  | .Qword => 8

/-- Number of values of the element type: `2 ^ (8 * sizeof(TYPE))`. -/
def ElemType.range (T : ElemType) : Nat := 256 ^ T.sizeof

/-- Little-endian value of the `k` bytes of `m` starting at address `p`. -/
def loadBytes (m : Mem) : Nat → Int → Nat
  | 0, _ => 0
  | k + 1, p => (m p).val + 256 * loadBytes m k (p + 1)

/-- The C expression `*p` for `p` of type `TYPE *`, as an rvalue. -/
def load (T : ElemType) (m : Mem) (p : Int) : Nat :=
  loadBytes m T.sizeof p

/-- The C assignment `*p = v` for `p` of type `TYPE *`: the `sizeof(TYPE)` bytes
from `p` receive the little-endian digits of `v`, every other byte is kept. -/
def store (T : ElemType) (m : Mem) (p : Int) (v : Nat) : Mem :=
  fun x =>
    if p ≤ x ∧ x < p + (T.sizeof : Int) then
      ⟨v / 256 ^ (x - p).toNat % 256, Nat.mod_lt _ (by decide)⟩
    else m x

/-- Element `i` of the region starting at `p`, viewed as an array of `TYPE`. -/
def elem (T : ElemType) (m : Mem) (p : Int) (i : Nat) : Nat :=
  load T m (p + (i : Int) * (T.sizeof : Int))

/-! ## The loops and the generated functions -/

/-- The `do { *memoryIterator = value; ++memoryIterator; } while (memoryIterator <
endMemoryRegion);` loop of `WriteMemoryRegion##TYPE_NAME`: the body runs before the
test. -/
def writeLoop (T : ElemType) (value : Nat) (endMemoryRegion : Int) (m : Mem)
    (memoryIterator : Int) : Mem :=
  if memoryIterator + (T.sizeof : Int) < endMemoryRegion then
    writeLoop T value endMemoryRegion (store T m memoryIterator value)
      (memoryIterator + (T.sizeof : Int))
  else store T m memoryIterator value
termination_by (endMemoryRegion - memoryIterator).toNat
decreasing_by
  cases T <;> simp only [ElemType.sizeof] at * <;> omega

/-- Template `DEFINE_WRITE_MEMORY_REGION_FUNC`: `WriteMemoryRegion##TYPE_NAME`. -/
def WriteMemoryRegion (T : ElemType) (m : Mem) (memoryRegion : Int) (value : Nat)
    (sizeInBytes : Nat) : Mem :=
  if memoryRegion = 0 then m
  else if memoryRegion = memoryRegion + (sizeInBytes : Int) then m
  else writeLoop T value (memoryRegion + (sizeInBytes : Int)) m memoryRegion

/-- The `while (s < end) { *d++ = *s++; }` loop of `CopyMemoryRegion##TYPE_NAME`. -/
def copyLoop (T : ElemType) (endp : Int) (m : Mem) (d s : Int) : Mem :=
  if s < endp then
    copyLoop T endp (store T m d (load T m s)) (d + (T.sizeof : Int)) (s + (T.sizeof : Int))
  else m
termination_by (endp - s).toNat
decreasing_by
  cases T <;> simp only [ElemType.sizeof] at * <;> omega

/-- Template `DEFINE_COPY_MEMORY_REGION_FUNC`: `CopyMemoryRegion##TYPE_NAME`. -/
def CopyMemoryRegion (T : ElemType) (m : Mem) (dest src : Int) (sizeInBytes : Nat) : Mem :=
  if dest = 0 ∨ src = 0 then m
  else copyLoop T (src + (sizeInBytes : Int)) m dest src

/-- Conversion of an integer value to the 32-bit `int` result type: its
representative modulo `2 ^ 32` in the interval from `-2 ^ 31` up to `2 ^ 31 - 1`. -/
def toInt32 (x : Int) : Int :=
  if x % 2 ^ 32 < 2 ^ 31 then x % 2 ^ 32 else x % 2 ^ 32 - 2 ^ 32

/-- The C expression `*r1 - *r2` returned as `int`, for operand values `a` and `b` of
type `TYPE`.  `uint8_t` and `uint16_t` operands are promoted to `int` and subtracted
exactly; `uint32_t` operands are subtracted modulo `2 ^ 32` and `uint64_t` operands
modulo `2 ^ 64`, and the unsigned difference is then converted to `int`. -/
def subAsInt : ElemType → Nat → Nat → Int
  | .Byte, a, b => (a : Int) - (b : Int)
  | .Word, a, b => (a : Int) - (b : Int)
  | .Dword, a, b => toInt32 (((a : Int) - (b : Int)) % 2 ^ 32)
  | .Qword, a, b => toInt32 (((a : Int) - (b : Int)) % 2 ^ 64)

/-- The `while (r1 < end) { if (*r1 != *r2) return *r1 - *r2; ++r1; ++r2; } return 0;`
part of `CompareMemoryRegion##TYPE_NAME`. -/
def compareLoop (T : ElemType) (endp : Int) (m : Mem) (r1 r2 : Int) : Int :=
  if r1 < endp then
    if load T m r1 ≠ load T m r2 then subAsInt T (load T m r1) (load T m r2)
    else compareLoop T endp m (r1 + (T.sizeof : Int)) (r2 + (T.sizeof : Int))
  else 0
termination_by (endp - r1).toNat
decreasing_by
  cases T <;> simp only [ElemType.sizeof] at * <;> omega

/-- Template `DEFINE_COMPARE_MEMORY_REGION_FUNC`: `CompareMemoryRegion##TYPE_NAME`.
The function only reads memory; its value is the returned `int`. -/
def CompareMemoryRegion (T : ElemType) (m : Mem) (region1 region2 : Int)
    (sizeInBytes : Nat) : Int :=
  if region1 = 0 ∨ region2 = 0 then -1
  else compareLoop T (region1 + (sizeInBytes : Int)) m region1 region2

/-- The `while (memoryIterator < endMemoryRegion) { *memoryIterator++ = 0; }` loop of
`ZeroMemoryRegion##TYPE_NAME`. -/
def zeroLoop (T : ElemType) (endMemoryRegion : Int) (m : Mem) (memoryIterator : Int) : Mem :=
  if memoryIterator < endMemoryRegion then
    zeroLoop T endMemoryRegion (store T m memoryIterator 0) (memoryIterator + (T.sizeof : Int))
  else m
termination_by (endMemoryRegion - memoryIterator).toNat
decreasing_by
  cases T <;> simp only [ElemType.sizeof] at * <;> omega

/-- Template `DEFINE_ZERO_MEMORY_REGION_FUNC`: `ZeroMemoryRegion##TYPE_NAME`. -/
def ZeroMemoryRegion (T : ElemType) (m : Mem) (memoryRegion : Int) (sizeInBytes : Nat) : Mem :=
  if memoryRegion = 0 then m
  else zeroLoop T (memoryRegion + (sizeInBytes : Int)) m memoryRegion

/-- The `while (memoryIterator < endMemoryRegion) { *memoryIterator++ = value; }`
loop of `SetMemoryRegion##TYPE_NAME`. -/
def setLoop (T : ElemType) (value : Nat) (endMemoryRegion : Int) (m : Mem)
    (memoryIterator : Int) : Mem :=
  if memoryIterator < endMemoryRegion then
    setLoop T value endMemoryRegion (store T m memoryIterator value)
      (memoryIterator + (T.sizeof : Int))
  else m
termination_by (endMemoryRegion - memoryIterator).toNat
decreasing_by
  cases T <;> simp only [ElemType.sizeof] at * <;> omega

/-- Template `DEFINE_SET_MEMORY_REGION_FUNC`: `SetMemoryRegion##TYPE_NAME`. -/
def SetMemoryRegion (T : ElemType) (m : Mem) (memoryRegion : Int) (value : Nat)
    (sizeInBytes : Nat) : Mem :=
  if memoryRegion = 0 then m
  else setLoop T value (memoryRegion + (sizeInBytes : Int)) m memoryRegion

/-- The `while (start < end) { temp = *start; *start = *end; *end = temp; start++;
end--; }` loop of `ReverseMemoryRegion##TYPE_NAME`. -/
def reverseLoop (T : ElemType) (m : Mem) (start endp : Int) : Mem :=
  if start < endp then
    reverseLoop T (store T (store T m start (load T m endp)) endp (load T m start))
      (start + (T.sizeof : Int)) (endp - (T.sizeof : Int))
  else m
termination_by (endp - start).toNat
decreasing_by
  cases T <;> simp only [ElemType.sizeof] at * <;> omega

/-- Template `DEFINE_REVERSE_MEMORY_REGION_FUNC`: `ReverseMemoryRegion##TYPE_NAME`.
The end pointer is `(TYPE *)((uint8_t *)memoryRegion + sizeInBytes) - 1`, one element
before the byte end of the region. -/
def ReverseMemoryRegion (T : ElemType) (m : Mem) (memoryRegion : Int)
    (sizeInBytes : Nat) : Mem :=
  if memoryRegion = 0 then m
  else reverseLoop T m memoryRegion
    (memoryRegion + (sizeInBytes : Int) - (T.sizeof : Int))

/-- The `for (size_t i = 0; i < sizeInBytes / sizeof(TYPE); i++) { temp = r1[i];
r1[i] = r2[i]; r2[i] = temp; }` loop of `SwapMemoryRegions##TYPE_NAME`, from index `i`. -/
def swapLoop (T : ElemType) (r1 r2 : Int) (sizeInBytes : Nat) (m : Mem) (i : Nat) : Mem :=
  if i < sizeInBytes / T.sizeof then
    swapLoop T r1 r2 sizeInBytes
      (store T
        (store T m (r1 + (i : Int) * (T.sizeof : Int))
          (load T m (r2 + (i : Int) * (T.sizeof : Int))))
        (r2 + (i : Int) * (T.sizeof : Int))
        (load T m (r1 + (i : Int) * (T.sizeof : Int))))
      (i + 1)
  else m
termination_by sizeInBytes / T.sizeof - i

/-- Template `DEFINE_SWAP_MEMORY_REGIONS_FUNC`: `SwapMemoryRegions##TYPE_NAME`. -/
def SwapMemoryRegions (T : ElemType) (m : Mem) (region1 region2 : Int)
    (sizeInBytes : Nat) : Mem :=
  if region1 = 0 ∨ region2 = 0 then m
  else swapLoop T region1 region2 sizeInBytes m 0

/-! ## The instances generated in `utils.h` -/

/-- Instance `DEFINE_WRITE_MEMORY_REGION_FUNC(uint8_t, Byte)` of `utils.h`. -/
def WriteMemoryRegionByte (m : Mem) (memoryRegion : Int) (value sizeInBytes : Nat) : Mem :=
  WriteMemoryRegion .Byte m memoryRegion value sizeInBytes

/-- Instance `DEFINE_WRITE_MEMORY_REGION_FUNC(uint16_t, Word)` of `utils.h`. -/
def WriteMemoryRegionWord (m : Mem) (memoryRegion : Int) (value sizeInBytes : Nat) : Mem :=
  WriteMemoryRegion .Word m memoryRegion value sizeInBytes

/-- Instance `DEFINE_WRITE_MEMORY_REGION_FUNC(uint32_t, Dword)` of `utils.h`. -/
def WriteMemoryRegionDword (m : Mem) (memoryRegion : Int) (value sizeInBytes : Nat) : Mem :=
  WriteMemoryRegion .Dword m memoryRegion value sizeInBytes

/-- Instance `DEFINE_WRITE_MEMORY_REGION_FUNC(uint64_t, Qword)` of `utils.h`. -/
def WriteMemoryRegionQword (m : Mem) (memoryRegion : Int) (value sizeInBytes : Nat) : Mem :=
  WriteMemoryRegion .Qword m memoryRegion value sizeInBytes

/-- Instance `DEFINE_COPY_MEMORY_REGION_FUNC(uint8_t, Byte)` of `utils.h`. -/
def CopyMemoryRegionByte (m : Mem) (dest src : Int) (sizeInBytes : Nat) : Mem :=
  CopyMemoryRegion .Byte m dest src sizeInBytes

/-- Instance `DEFINE_COPY_MEMORY_REGION_FUNC(uint16_t, Word)` of `utils.h`. -/
def CopyMemoryRegionWord (m : Mem) (dest src : Int) (sizeInBytes : Nat) : Mem :=
  CopyMemoryRegion .Word m dest src sizeInBytes

/-- Instance `DEFINE_COPY_MEMORY_REGION_FUNC(uint32_t, Dword)` of `utils.h`. -/
def CopyMemoryRegionDword (m : Mem) (dest src : Int) (sizeInBytes : Nat) : Mem :=
  CopyMemoryRegion .Dword m dest src sizeInBytes

/-- Instance `DEFINE_COPY_MEMORY_REGION_FUNC(uint64_t, Qword)` of `utils.h`. -/
def CopyMemoryRegionQword (m : Mem) (dest src : Int) (sizeInBytes : Nat) : Mem :=
  CopyMemoryRegion .Qword m dest src sizeInBytes

/-- Instance `DEFINE_COMPARE_MEMORY_REGION_FUNC(uint8_t, Byte)` of `utils.h`. -/
def CompareMemoryRegionByte (m : Mem) (region1 region2 : Int) (sizeInBytes : Nat) : Int :=
  CompareMemoryRegion .Byte m region1 region2 sizeInBytes

/-- Instance `DEFINE_COMPARE_MEMORY_REGION_FUNC(uint16_t, Word)` of `utils.h`. -/
def CompareMemoryRegionWord (m : Mem) (region1 region2 : Int) (sizeInBytes : Nat) : Int :=
  CompareMemoryRegion .Word m region1 region2 sizeInBytes

/-- Instance `DEFINE_COMPARE_MEMORY_REGION_FUNC(uint32_t, Dword)` of `utils.h`. -/
def CompareMemoryRegionDword (m : Mem) (region1 region2 : Int) (sizeInBytes : Nat) : Int :=
  CompareMemoryRegion .Dword m region1 region2 sizeInBytes

/-- Instance `DEFINE_COMPARE_MEMORY_REGION_FUNC(uint64_t, Qword)` of `utils.h`. -/
def CompareMemoryRegionQword (m : Mem) (region1 region2 : Int) (sizeInBytes : Nat) : Int :=
  CompareMemoryRegion .Qword m region1 region2 sizeInBytes

/-- Instance `DEFINE_ZERO_MEMORY_REGION_FUNC(uint8_t, Byte)` of `utils.h`. -/
def ZeroMemoryRegionByte (m : Mem) (memoryRegion : Int) (sizeInBytes : Nat) : Mem :=
  ZeroMemoryRegion .Byte m memoryRegion sizeInBytes

/-- Instance `DEFINE_ZERO_MEMORY_REGION_FUNC(uint16_t, Word)` of `utils.h`. -/
def ZeroMemoryRegionWord (m : Mem) (memoryRegion : Int) (sizeInBytes : Nat) : Mem :=
  ZeroMemoryRegion .Word m memoryRegion sizeInBytes

/-- Instance `DEFINE_ZERO_MEMORY_REGION_FUNC(uint32_t, Dword)` of `utils.h`. -/
def ZeroMemoryRegionDword (m : Mem) (memoryRegion : Int) (sizeInBytes : Nat) : Mem :=
  ZeroMemoryRegion .Dword m memoryRegion sizeInBytes

/-- Instance `DEFINE_ZERO_MEMORY_REGION_FUNC(uint64_t, Qword)` of `utils.h`. -/
def ZeroMemoryRegionQword (m : Mem) (memoryRegion : Int) (sizeInBytes : Nat) : Mem :=
  ZeroMemoryRegion .Qword m memoryRegion sizeInBytes

/-- Instance `DEFINE_SET_MEMORY_REGION_FUNC(uint8_t, Byte)` of `utils.h`. -/
def SetMemoryRegionByte (m : Mem) (memoryRegion : Int) (value sizeInBytes : Nat) : Mem :=
  SetMemoryRegion .Byte m memoryRegion value sizeInBytes

/-- Instance `DEFINE_SET_MEMORY_REGION_FUNC(uint16_t, Word)` of `utils.h`. -/
def SetMemoryRegionWord (m : Mem) (memoryRegion : Int) (value sizeInBytes : Nat) : Mem :=
  SetMemoryRegion .Word m memoryRegion value sizeInBytes

/-- Instance `DEFINE_SET_MEMORY_REGION_FUNC(uint32_t, Dword)` of `utils.h`. -/
def SetMemoryRegionDword (m : Mem) (memoryRegion : Int) (value sizeInBytes : Nat) : Mem :=
  SetMemoryRegion .Dword m memoryRegion value sizeInBytes

/-- Instance `DEFINE_SET_MEMORY_REGION_FUNC(uint64_t, Qword)` of `utils.h`. -/
def SetMemoryRegionQword (m : Mem) (memoryRegion : Int) (value sizeInBytes : Nat) : Mem :=
  SetMemoryRegion .Qword m memoryRegion value sizeInBytes

/-- Instance `DEFINE_REVERSE_MEMORY_REGION_FUNC(uint8_t, Byte)` of `utils.h`. -/
def ReverseMemoryRegionByte (m : Mem) (memoryRegion : Int) (sizeInBytes : Nat) : Mem :=
  ReverseMemoryRegion .Byte m memoryRegion sizeInBytes

/-- Instance `DEFINE_REVERSE_MEMORY_REGION_FUNC(uint16_t, Word)` of `utils.h`. -/
def ReverseMemoryRegionWord (m : Mem) (memoryRegion : Int) (sizeInBytes : Nat) : Mem :=
  ReverseMemoryRegion .Word m memoryRegion sizeInBytes

/-- Instance `DEFINE_REVERSE_MEMORY_REGION_FUNC(uint32_t, Dword)` of `utils.h`. -/
def ReverseMemoryRegionDword (m : Mem) (memoryRegion : Int) (sizeInBytes : Nat) : Mem :=
  ReverseMemoryRegion .Dword m memoryRegion sizeInBytes

/-- Instance `DEFINE_REVERSE_MEMORY_REGION_FUNC(uint64_t, Qword)` of `utils.h`. -/
def ReverseMemoryRegionQword (m : Mem) (memoryRegion : Int) (sizeInBytes : Nat) : Mem :=
  ReverseMemoryRegion .Qword m memoryRegion sizeInBytes

/-- Instance `DEFINE_SWAP_MEMORY_REGIONS_FUNC(uint8_t, Byte)` of `utils.h`. -/
def SwapMemoryRegionsByte (m : Mem) (region1 region2 : Int) (sizeInBytes : Nat) : Mem :=
  SwapMemoryRegions .Byte m region1 region2 sizeInBytes

/-- Instance `DEFINE_SWAP_MEMORY_REGIONS_FUNC(uint16_t, Word)` of `utils.h`. -/
def SwapMemoryRegionsWord (m : Mem) (region1 region2 : Int) (sizeInBytes : Nat) : Mem :=
  SwapMemoryRegions .Word m region1 region2 sizeInBytes

/-- Instance `DEFINE_SWAP_MEMORY_REGIONS_FUNC(uint32_t, Dword)` of `utils.h`. -/
def SwapMemoryRegionsDword (m : Mem) (region1 region2 : Int) (sizeInBytes : Nat) : Mem :=
  SwapMemoryRegions .Dword m region1 region2 sizeInBytes

/-- Instance `DEFINE_SWAP_MEMORY_REGIONS_FUNC(uint64_t, Qword)` of `utils.h`. -/
def SwapMemoryRegionsQword (m : Mem) (region1 region2 : Int) (sizeInBytes : Nat) : Mem :=
  SwapMemoryRegions .Qword m region1 region2 sizeInBytes

/-! ## Specification vocabulary and scenario memories -/

/-- Memory holding the Byte region `[1,2,3,4]` at address 16 and the Byte region
`[1,2,9,4]` at address 32; every other byte is 0. -/
def compareScenario : Mem := fun a =>
  if a = 16 then 1 else if a = 17 then 2 else if a = 18 then 3 else if a = 19 then 4
  else if a = 32 then 1 else if a = 33 then 2 else if a = 34 then 9 else if a = 35 then 4
  else 0

/-- Memory holding the Word region `[1,2,3]` (6 bytes) at address 16; every other byte
is 0. -/
def reverseScenario : Mem := fun a =>
  if a = 16 then 1 else if a = 18 then 2 else if a = 20 then 3 else 0


/-- The regions of `n` bytes starting at `p` and at `q` share no byte. -/
def RegionsDisjoint (p q : Int) (n : Nat) : Prop :=
  p + (n : Int) ≤ q ∨ q + (n : Int) ≤ p

instance (p q : Int) (n : Nat) : Decidable (RegionsDisjoint p q n) := by
  unfold RegionsDisjoint
  infer_instance

/-- Index `i` is the first one below `k` at which the two regions hold different
elements. -/
def FirstMismatch (T : ElemType) (m : Mem) (region1 region2 : Int) (k i : Nat) : Prop :=
  i < k ∧ elem T m region1 i ≠ elem T m region2 i ∧
    ∀ j : Nat, j < i → elem T m region1 j = elem T m region2 j

instance (T : ElemType) (m : Mem) (region1 region2 : Int) (k i : Nat) :
    Decidable (FirstMismatch T m region1 region2 k i) := by
  unfold FirstMismatch
  infer_instance

/-! ## Basic facts -/

theorem ElemType.sizeof_pos (T : ElemType) : 0 < T.sizeof := by
  cases T <;> decide

/-! ## Elementary facts about `load` and `store` -/

theorem loadBytes_lt (m : Mem) (k : Nat) (p : Int) : loadBytes m k p < 256 ^ k := by
  induction k generalizing p with
  | zero => simp [loadBytes]
  | succ k ih =>
    have h1 := ih (p + 1)
    have h2 := (m p).isLt
    simp only [loadBytes, pow_succ]
    omega

theorem loadBytes_congr (m m' : Mem) (k : Nat) (p q : Int)
    (h : ∀ j : Nat, j < k → m (p + (j : Int)) = m' (q + (j : Int))) :
    loadBytes m k p = loadBytes m' k q := by
  induction k generalizing p q with
  | zero => simp [loadBytes]
  | succ k ih =>
    have h0 := h 0 (Nat.succ_pos k)
    simp only [Nat.cast_zero, add_zero] at h0
    have hrec : loadBytes m k (p + 1) = loadBytes m' k (q + 1) := by
      apply ih
      intro j hj
      have := h (j + 1) (Nat.succ_lt_succ hj)
      have ep : p + 1 + (j : Int) = p + ((j + 1 : Nat) : Int) := by push_cast; ring
      have eq : q + 1 + (j : Int) = q + ((j + 1 : Nat) : Int) := by push_cast; ring
      rw [ep, eq]
      exact this
    simp only [loadBytes, h0, hrec]

theorem loadBytes_digit (m : Mem) (k : Nat) (p : Int) (j : Nat) (hj : j < k) :
    loadBytes m k p / 256 ^ j % 256 = (m (p + (j : Int))).val := by
  induction k generalizing p j with
  | zero => omega
  | succ k ih =>
    have hb := (m p).isLt
    cases j with
    | zero =>
      simp only [loadBytes, pow_zero, Nat.div_one, Nat.cast_zero, add_zero]
      omega
    | succ j =>
      have hrec := ih (p + 1) j (Nat.lt_of_succ_lt_succ hj)
      have hdiv : ((m p).val + 256 * loadBytes m k (p + 1)) / 256 ^ (j + 1)
          = loadBytes m k (p + 1) / 256 ^ j := by
        rw [pow_succ, mul_comm (256 ^ j) 256, ← Nat.div_div_eq_div_mul]
        congr 1
        omega
      simp only [loadBytes, hdiv, hrec]
      congr 2
      push_cast
      ring

theorem loadBytes_of_digits (m : Mem) (k : Nat) (p : Int) (v : Nat)
    (h : ∀ j : Nat, j < k → (m (p + (j : Int))).val = v / 256 ^ j % 256) :
    loadBytes m k p = v % 256 ^ k := by
  induction k generalizing p v with
  | zero => simp [loadBytes, Nat.mod_one]
  | succ k ih =>
    have h0 := h 0 (Nat.succ_pos k)
    simp only [Nat.cast_zero, add_zero, pow_zero, Nat.div_one] at h0
    have hrec : loadBytes m k (p + 1) = v / 256 % 256 ^ k := by
      apply ih
      intro j hj
      have := h (j + 1) (Nat.succ_lt_succ hj)
      rw [Nat.div_div_eq_div_mul, ← pow_succ']
      rw [← this]
      congr 2
      push_cast
      ring
    simp only [loadBytes, h0, hrec, pow_succ']
    rw [Nat.mod_mul]

theorem store_outside (T : ElemType) (m : Mem) (p : Int) (v : Nat) (x : Int)
    (h : x < p ∨ p + (T.sizeof : Int) ≤ x) : store T m p v x = m x := by
  unfold store
  rw [if_neg]
  omega

theorem store_inside (T : ElemType) (m : Mem) (p : Int) (v : Nat) (j : Nat)
    (hj : j < T.sizeof) : (store T m p v (p + (j : Int))).val = v / 256 ^ j % 256 := by
  unfold store
  rw [if_pos (by omega)]
  simp

theorem load_lt (T : ElemType) (m : Mem) (p : Int) : load T m p < T.range :=
  loadBytes_lt m T.sizeof p

theorem load_congr (T : ElemType) (m m' : Mem) (p q : Int)
    (h : ∀ j : Nat, j < T.sizeof → m (p + (j : Int)) = m' (q + (j : Int))) :
    load T m p = load T m' q :=
  loadBytes_congr m m' T.sizeof p q h

theorem load_store_same (T : ElemType) (m : Mem) (p : Int) (v : Nat) (hv : v < T.range) :
    load T (store T m p v) p = v := by
  unfold load
  rw [loadBytes_of_digits _ _ _ v (fun j hj => store_inside T m p v j hj)]
  exact Nat.mod_eq_of_lt hv

theorem store_load_byte (T : ElemType) (m m' : Mem) (p q : Int) (j : Nat)
    (hj : j < T.sizeof) : store T m p (load T m' q) (p + (j : Int)) = m' (q + (j : Int)) := by
  apply Fin.ext
  rw [store_inside T m p _ j hj]
  exact loadBytes_digit m' T.sizeof q j hj

theorem ElemType.sizeof_cast_pos (T : ElemType) : (0 : Int) < (T.sizeof : Int) := by
  exact_mod_cast T.sizeof_pos

theorem mul_succ_le (i c : Nat) (W : Int) (hW : 0 ≤ W) (hi : i < c) :
    (i : Int) * W + W ≤ (c : Int) * W := by
  have h1 : (i : Int) + 1 ≤ (c : Int) := by exact_mod_cast hi
  have h2 := mul_le_mul_of_nonneg_right h1 hW
  linarith

theorem cast_length_eq (T : ElemType) (n : Nat) (hn : n % T.sizeof = 0) :
    (n : Int) = ((n / T.sizeof : Nat) : Int) * (T.sizeof : Int) := by
  have := Nat.div_add_mod n T.sizeof
  rw [hn, add_zero, mul_comm] at this
  exact_mod_cast this.symm

theorem elem_eq_of_bytes (T : ElemType) (m : Mem) (p : Int) (i v : Nat) (hv : v < T.range)
    (h : ∀ j : Nat, j < T.sizeof →
      (m (p + (i : Int) * (T.sizeof : Int) + (j : Int))).val = v / 256 ^ j % 256) :
    elem T m p i = v := by
  unfold elem load
  rw [loadBytes_of_digits m T.sizeof _ v h]
  exact Nat.mod_eq_of_lt hv

/-! ## Value-Fill -/

theorem setLoop_spec (T : ElemType) (value : Nat) (c : Nat) : ∀ (m : Mem) (it : Int),
    (∀ x : Int, x < it ∨ it + (c : Int) * (T.sizeof : Int) ≤ x →
      setLoop T value (it + (c : Int) * (T.sizeof : Int)) m it x = m x) ∧
    (∀ i j : Nat, i < c → j < T.sizeof →
      (setLoop T value (it + (c : Int) * (T.sizeof : Int)) m it
        (it + (i : Int) * (T.sizeof : Int) + (j : Int))).val = value / 256 ^ j % 256) := by
  have hW := T.sizeof_cast_pos
  induction c with
  | zero =>
    intro m it
    rw [setLoop, if_neg (by simp)]
    exact ⟨fun _ _ => rfl, fun i j hi _ => absurd hi (Nat.not_lt_zero i)⟩
  | succ c ih =>
    intro m it
    have hc : (0 : Int) ≤ (c : Int) * (T.sizeof : Int) := by positivity
    have e : it + ((c + 1 : Nat) : Int) * (T.sizeof : Int)
        = (it + (T.sizeof : Int)) + (c : Int) * (T.sizeof : Int) := by push_cast; ring
    rw [setLoop, if_pos (by rw [e]; omega), e]
    obtain ⟨hframe, hfill⟩ := ih (store T m it value) (it + (T.sizeof : Int))
    refine ⟨?_, ?_⟩
    · intro x hx
      rw [hframe x (by omega), store_outside T m it value x (by omega)]
    · intro i j hi hj
      cases i with
      | zero =>
        have hx : it + ((0 : Nat) : Int) * (T.sizeof : Int) + (j : Int) = it + (j : Int) := by
          simp
        rw [hx, hframe (it + (j : Int)) (by omega)]
        exact store_inside T m it value j hj
      | succ i =>
        have hx : it + ((i + 1 : Nat) : Int) * (T.sizeof : Int) + (j : Int)
            = it + (T.sizeof : Int) + (i : Int) * (T.sizeof : Int) + (j : Int) := by
          push_cast; ring
        rw [hx]
        exact hfill i j (Nat.lt_of_succ_lt_succ hi) hj

theorem SetMemoryRegion_spec (T : ElemType) (m : Mem) (memoryRegion : Int) (v n : Nat)
    (hnull : memoryRegion ≠ 0) (hv : v < T.range) (hn : n % T.sizeof = 0) :
    (∀ i : Nat, i < n / T.sizeof →
      elem T (SetMemoryRegion T m memoryRegion v n) memoryRegion i = v) ∧
    (∀ off : Nat, n ≤ off →
      SetMemoryRegion T m memoryRegion v n (memoryRegion + (off : Int))
        = m (memoryRegion + (off : Int))) := by
  have hnc := cast_length_eq T n hn
  obtain ⟨hframe, hfill⟩ := setLoop_spec T v (n / T.sizeof) m memoryRegion
  unfold SetMemoryRegion
  rw [if_neg hnull, hnc]
  refine ⟨?_, ?_⟩
  · intro i hi
    exact elem_eq_of_bytes T _ memoryRegion i v hv (fun j hj => hfill i j hi hj)
  · intro off hoff
    apply hframe
    right
    rw [← hnc]
    omega

/-- C1. Value-Fill: for each of the four element types, a non-null region, a value `v`
of the element type and a byte length `n` that is a multiple of the element width,
after `SetMemoryRegion` each of the `n / sizeof` element slots holds `v` and every
byte at offset `n` or more from the region start is unchanged. -/
theorem SetMemoryRegion_fills (T : ElemType) (m : Mem) (memoryRegion : Int) (v n : Nat)
    (hnull : memoryRegion ≠ 0) (hv : v < T.range) (hn : n % T.sizeof = 0) :
    (∀ i : Nat, i < n / T.sizeof →
      elem T (SetMemoryRegion T m memoryRegion v n) memoryRegion i = v) ∧
    (∀ off : Nat, n ≤ off →
      SetMemoryRegion T m memoryRegion v n (memoryRegion + (off : Int))
        = m (memoryRegion + (off : Int))) :=
  SetMemoryRegion_spec T m memoryRegion v n hnull hv hn

/-- C1 at a concrete input: a Qword fill of 16 bytes at address 64. -/
theorem SetMemoryRegion_fills_witness :
    (64 : Int) ≠ 0 ∧ 7 < ElemType.Qword.range ∧ 16 % ElemType.Qword.sizeof = 0 ∧
    (∀ i : Nat, i < 16 / ElemType.Qword.sizeof →
      elem .Qword (SetMemoryRegion .Qword (fun _ => 255) 64 7 16) 64 i = 7) ∧
    (∀ off : Nat, 16 ≤ off →
      SetMemoryRegion .Qword (fun _ => 255) 64 7 16 (64 + (off : Int))
        = (fun _ => 255 : Mem) (64 + (off : Int))) :=
  ⟨by decide, by decide, by decide,
    SetMemoryRegion_fills .Qword (fun _ => 255) 64 7 16 (by decide) (by decide) (by decide)⟩

/-! ## Write-Fill -/

theorem writeLoop_eq_setLoop (T : ElemType) (value : Nat) (endp : Int) :
    ∀ (k : Nat) (m : Mem) (it : Int), (endp - it).toNat ≤ k → it < endp →
      writeLoop T value endp m it = setLoop T value endp m it := by
  have hW := T.sizeof_cast_pos
  intro k
  induction k with
  | zero => intro m it hk hlt; omega
  | succ k ih =>
    intro m it hk hlt
    rw [writeLoop.eq_1 T value endp m it, setLoop.eq_1 T value endp m it, if_pos hlt]
    by_cases h2 : it + (T.sizeof : Int) < endp
    · rw [if_pos h2]
      exact ih _ _ (by omega) h2
    · rw [if_neg h2, setLoop, if_neg h2]

theorem WriteMemoryRegion_eq_SetMemoryRegion (T : ElemType) (m : Mem) (memoryRegion : Int)
    (value sizeInBytes : Nat) :
    WriteMemoryRegion T m memoryRegion value sizeInBytes
      = SetMemoryRegion T m memoryRegion value sizeInBytes := by
  unfold WriteMemoryRegion SetMemoryRegion
  by_cases h0 : memoryRegion = 0
  · rw [if_pos h0, if_pos h0]
  · rw [if_neg h0, if_neg h0]
    by_cases h1 : memoryRegion = memoryRegion + (sizeInBytes : Int)
    · rw [if_pos h1, setLoop, if_neg (by omega)]
    · rw [if_neg h1]
      exact writeLoop_eq_setLoop T value _ _ m memoryRegion (le_refl _) (by omega)

/-- C2. Write-Fill: for each of the four element types, a non-null region, a value `v`
of the element type and a positive byte length `n` that is a multiple of the element
width, after `WriteMemoryRegion` each of the `n / sizeof` element slots holds `v` and
no byte at offset `n` or more is changed. -/
theorem WriteMemoryRegion_fills (T : ElemType) (m : Mem) (memoryRegion : Int) (v n : Nat)
    (hnull : memoryRegion ≠ 0) (hv : v < T.range) (_hpos : 0 < n) (hn : n % T.sizeof = 0) :
    (∀ i : Nat, i < n / T.sizeof →
      elem T (WriteMemoryRegion T m memoryRegion v n) memoryRegion i = v) ∧
    (∀ off : Nat, n ≤ off →
      WriteMemoryRegion T m memoryRegion v n (memoryRegion + (off : Int))
        = m (memoryRegion + (off : Int))) := by
  rw [WriteMemoryRegion_eq_SetMemoryRegion]
  exact SetMemoryRegion_spec T m memoryRegion v n hnull hv hn

/-- C2 at the scenario of the specification: an 8-byte region read as Dword elements,
value `0xAABBCCDD`, byte length 8; both 4-byte slots then equal `0xAABBCCDD`. -/
theorem WriteMemoryRegion_fills_witness :
    (16 : Int) ≠ 0 ∧ 0xAABBCCDD < ElemType.Dword.range ∧ 0 < 8 ∧
    8 % ElemType.Dword.sizeof = 0 ∧
    elem .Dword (WriteMemoryRegion .Dword (fun _ => 0) 16 0xAABBCCDD 8) 16 0 = 0xAABBCCDD ∧
    elem .Dword (WriteMemoryRegion .Dword (fun _ => 0) 16 0xAABBCCDD 8) 16 1 = 0xAABBCCDD :=
  ⟨by decide, by decide, by decide, by decide,
    (WriteMemoryRegion_fills .Dword (fun _ => 0) 16 0xAABBCCDD 8
      (by decide) (by decide) (by decide) (by decide)).1 0 (by decide),
    (WriteMemoryRegion_fills .Dword (fun _ => 0) 16 0xAABBCCDD 8
      (by decide) (by decide) (by decide) (by decide)).1 1 (by decide)⟩

/-! ## Copy -/

theorem copyLoop_spec (T : ElemType) (c : Nat) : ∀ (m : Mem) (d s : Int),
    (d + (c : Int) * (T.sizeof : Int) ≤ s ∨ s + (c : Int) * (T.sizeof : Int) ≤ d) →
    (∀ x : Int, x < d ∨ d + (c : Int) * (T.sizeof : Int) ≤ x →
      copyLoop T (s + (c : Int) * (T.sizeof : Int)) m d s x = m x) ∧
    (∀ i j : Nat, i < c → j < T.sizeof →
      copyLoop T (s + (c : Int) * (T.sizeof : Int)) m d s
        (d + (i : Int) * (T.sizeof : Int) + (j : Int))
        = m (s + (i : Int) * (T.sizeof : Int) + (j : Int))) := by
  have hW := T.sizeof_cast_pos
  induction c with
  | zero =>
    intro m d s _
    rw [copyLoop, if_neg (by simp)]
    exact ⟨fun _ _ => rfl, fun i j hi _ => absurd hi (Nat.not_lt_zero i)⟩
  | succ c ih =>
    intro m d s hdis
    have hc : (0 : Int) ≤ (c : Int) * (T.sizeof : Int) := by positivity
    have e : ∀ a : Int, a + ((c + 1 : Nat) : Int) * (T.sizeof : Int)
        = (a + (T.sizeof : Int)) + (c : Int) * (T.sizeof : Int) := by
      intro a; push_cast; ring
    rw [e d, e s] at hdis
    rw [copyLoop, if_pos (by rw [e]; omega), e s]
    obtain ⟨hframe, hcopy⟩ := ih (store T m d (load T m s)) (d + (T.sizeof : Int))
      (s + (T.sizeof : Int)) (by omega)
    refine ⟨?_, ?_⟩
    · intro x hx
      rw [e d] at hx
      rw [hframe x (by omega), store_outside T m d _ x (by omega)]
    · intro i j hi hj
      cases i with
      | zero =>
        have hd : d + ((0 : Nat) : Int) * (T.sizeof : Int) + (j : Int) = d + (j : Int) := by
          simp
        have hs : s + ((0 : Nat) : Int) * (T.sizeof : Int) + (j : Int) = s + (j : Int) := by
          simp
        rw [hd, hs, hframe (d + (j : Int)) (by omega)]
        exact store_load_byte T m m d s j hj
      | succ i =>
        have hi' : i < c := Nat.lt_of_succ_lt_succ hi
        have hle := mul_succ_le i c (T.sizeof : Int) (le_of_lt hW) hi'
        have hx : ∀ a : Int, a + ((i + 1 : Nat) : Int) * (T.sizeof : Int) + (j : Int)
            = a + (T.sizeof : Int) + (i : Int) * (T.sizeof : Int) + (j : Int) := by
          intro a; push_cast; ring
        have hi0 : (0 : Int) ≤ (i : Int) * (T.sizeof : Int) := by positivity
        rw [hx d, hx s, hcopy i j hi' hj]
        exact store_outside T m d _ _ (by omega)

theorem CopyMemoryRegion_spec (T : ElemType) (m : Mem) (dest src : Int) (n : Nat)
    (hd : dest ≠ 0) (hs : src ≠ 0) (hdis : RegionsDisjoint dest src n)
    (hn : n % T.sizeof = 0) :
    (∀ x : Int, x < dest ∨ dest + (n : Int) ≤ x →
      CopyMemoryRegion T m dest src n x = m x) ∧
    (∀ i j : Nat, i < n / T.sizeof → j < T.sizeof →
      CopyMemoryRegion T m dest src n (dest + (i : Int) * (T.sizeof : Int) + (j : Int))
        = m (src + (i : Int) * (T.sizeof : Int) + (j : Int))) := by
  have hnc := cast_length_eq T n hn
  unfold RegionsDisjoint at hdis
  unfold CopyMemoryRegion
  rw [if_neg (by simp [hd, hs]), hnc]
  exact copyLoop_spec T (n / T.sizeof) m dest src (by rw [← hnc]; exact hdis)

/-- C3. Copy: for each of the four element types, non-null and non-overlapping regions
`dest` and `src` of `n` bytes, `n` a multiple of the element width, after
`CopyMemoryRegion` element `i` of `dest` equals the original element `i` of `src` for
every `i < n / sizeof`, the source region is unchanged, and every byte of `dest` at
offset `n` or more is unchanged. -/
theorem CopyMemoryRegion_copies (T : ElemType) (m : Mem) (dest src : Int) (n : Nat)
    (hd : dest ≠ 0) (hs : src ≠ 0) (hdis : RegionsDisjoint dest src n)
    (hn : n % T.sizeof = 0) :
    (∀ i : Nat, i < n / T.sizeof →
      elem T (CopyMemoryRegion T m dest src n) dest i = elem T m src i) ∧
    (∀ off : Nat, off < n →
      CopyMemoryRegion T m dest src n (src + (off : Int)) = m (src + (off : Int))) ∧
    (∀ off : Nat, n ≤ off →
      CopyMemoryRegion T m dest src n (dest + (off : Int)) = m (dest + (off : Int))) := by
  obtain ⟨hframe, hcopy⟩ := CopyMemoryRegion_spec T m dest src n hd hs hdis hn
  unfold RegionsDisjoint at hdis
  refine ⟨?_, ?_, ?_⟩
  · intro i hi
    exact load_congr T _ m _ _ (fun j hj => hcopy i j hi hj)
  · intro off hoff
    exact hframe _ (by omega)
  · intro off hoff
    exact hframe _ (by omega)

/-- C3 at a concrete input: a Word copy of 4 bytes from address 32 to address 16. -/
theorem CopyMemoryRegion_copies_witness :
    (16 : Int) ≠ 0 ∧ (32 : Int) ≠ 0 ∧ RegionsDisjoint 16 32 4 ∧
    4 % ElemType.Word.sizeof = 0 ∧
    (∀ i : Nat, i < 4 / ElemType.Word.sizeof →
      elem .Word (CopyMemoryRegion .Word (fun a => if a < 32 then 0 else 9) 16 32 4) 16 i
        = elem .Word (fun a => if a < 32 then 0 else 9) 32 i) :=
  ⟨by decide, by decide, by decide, by decide,
    (CopyMemoryRegion_copies .Word (fun a => if a < 32 then 0 else 9) 16 32 4
      (by decide) (by decide) (by decide) (by decide)).1⟩

/-! ## Compare -/

theorem elem_zero (T : ElemType) (m : Mem) (p : Int) : elem T m p 0 = load T m p := by
  simp [elem]

theorem elem_succ (T : ElemType) (m : Mem) (p : Int) (i : Nat) :
    elem T m p (i + 1) = elem T m (p + (T.sizeof : Int)) i := by
  unfold elem
  congr 1
  push_cast
  ring

theorem compareLoop_equal (T : ElemType) (m : Mem) (c : Nat) : ∀ (r1 r2 : Int),
    (∀ i : Nat, i < c → elem T m r1 i = elem T m r2 i) →
    compareLoop T (r1 + (c : Int) * (T.sizeof : Int)) m r1 r2 = 0 := by
  induction c with
  | zero =>
    intro r1 r2 _
    rw [compareLoop, if_neg (by simp)]
  | succ c ih =>
    intro r1 r2 heq
    have h0 := heq 0 (Nat.succ_pos c)
    rw [elem_zero, elem_zero] at h0
    have e : r1 + ((c + 1 : Nat) : Int) * (T.sizeof : Int)
        = (r1 + (T.sizeof : Int)) + (c : Int) * (T.sizeof : Int) := by push_cast; ring
    rw [compareLoop, e]
    split
    · rw [if_neg (by simpa using h0)]
      apply ih
      intro i hi
      rw [← elem_succ, ← elem_succ]
      exact heq (i + 1) (Nat.succ_lt_succ hi)
    · rfl

theorem compareLoop_mismatch (T : ElemType) (m : Mem) (i : Nat) : ∀ (c : Nat) (r1 r2 : Int),
    FirstMismatch T m r1 r2 c i →
    compareLoop T (r1 + (c : Int) * (T.sizeof : Int)) m r1 r2
      = subAsInt T (elem T m r1 i) (elem T m r2 i) := by
  have hW := T.sizeof_cast_pos
  induction i with
  | zero =>
    intro c r1 r2 ⟨hic, hne, _⟩
    have hc : (1 : Int) ≤ (c : Int) := by exact_mod_cast hic
    have hcw := mul_le_mul_of_nonneg_right hc (le_of_lt hW)
    rw [elem_zero, elem_zero] at hne ⊢
    rw [compareLoop, if_pos (by omega), if_pos hne]
  | succ i ih =>
    intro c r1 r2 ⟨hic, hne, hbefore⟩
    cases c with
    | zero => omega
    | succ c =>
      have h0 := hbefore 0 (Nat.succ_pos i)
      rw [elem_zero, elem_zero] at h0
      have hc : (0 : Int) ≤ (c : Int) * (T.sizeof : Int) := by positivity
      have e : r1 + ((c + 1 : Nat) : Int) * (T.sizeof : Int)
          = (r1 + (T.sizeof : Int)) + (c : Int) * (T.sizeof : Int) := by push_cast; ring
      rw [compareLoop, e, if_pos (by omega), if_neg (by simpa using h0)]
      rw [elem_succ, elem_succ] at hne ⊢
      apply ih c
      refine ⟨Nat.lt_of_succ_lt_succ hic, hne, ?_⟩
      intro j hj
      rw [← elem_succ, ← elem_succ]
      exact hbefore (j + 1) (Nat.succ_lt_succ hj)

theorem CompareMemoryRegion_equal (T : ElemType) (m : Mem) (region1 region2 : Int) (n : Nat)
    (h1 : region1 ≠ 0) (h2 : region2 ≠ 0) (hn : n % T.sizeof = 0)
    (heq : ∀ i : Nat, i < n / T.sizeof → elem T m region1 i = elem T m region2 i) :
    CompareMemoryRegion T m region1 region2 n = 0 := by
  unfold CompareMemoryRegion
  rw [if_neg (by simp [h1, h2]), cast_length_eq T n hn]
  exact compareLoop_equal T m _ region1 region2 heq

theorem CompareMemoryRegion_mismatch (T : ElemType) (m : Mem) (region1 region2 : Int)
    (n i : Nat) (h1 : region1 ≠ 0) (h2 : region2 ≠ 0) (hn : n % T.sizeof = 0)
    (hi : FirstMismatch T m region1 region2 (n / T.sizeof) i) :
    CompareMemoryRegion T m region1 region2 n
      = subAsInt T (elem T m region1 i) (elem T m region2 i) := by
  unfold CompareMemoryRegion
  rw [if_neg (by simp [h1, h2]), cast_length_eq T n hn]
  exact compareLoop_mismatch T m i _ region1 region2 hi

theorem exists_firstMismatch (T : ElemType) (m : Mem) (region1 region2 : Int) (k : Nat)
    (h : ¬ ∀ i : Nat, i < k → elem T m region1 i = elem T m region2 i) :
    ∃ i : Nat, FirstMismatch T m region1 region2 k i := by
  have hex : ∃ i : Nat, i < k ∧ elem T m region1 i ≠ elem T m region2 i := by
    by_contra hno
    apply h
    intro i hi
    by_contra hne
    exact hno ⟨i, hi, hne⟩
  classical
  refine ⟨Nat.find hex, (Nat.find_spec hex).1, (Nat.find_spec hex).2, ?_⟩
  intro j hj
  by_contra hne
  exact Nat.find_min hex hj ⟨lt_trans hj (Nat.find_spec hex).1, hne⟩

theorem subAsInt_narrow (T : ElemType) (hT : T = .Byte ∨ T = .Word) (a b : Nat) :
    subAsInt T a b = (a : Int) - (b : Int) := by
  rcases hT with h | h <;> subst h <;> rfl

theorem subAsInt_Dword_ne_zero (a b : Nat) (ha : a < ElemType.Dword.range)
    (hb : b < ElemType.Dword.range) (hne : a ≠ b) : subAsInt .Dword a b ≠ 0 := by
  simp only [ElemType.range, ElemType.sizeof] at ha hb
  norm_num at ha hb
  simp only [subAsInt, toInt32]
  norm_num
  split <;> omega

/-- For the Byte, Word and Dword instances the result of Compare is zero exactly when
the compared elements are pairwise equal. -/
theorem CompareMemoryRegion_eq_zero_iff (T : ElemType) (hT : T ≠ .Qword) (m : Mem)
    (region1 region2 : Int) (n : Nat) (h1 : region1 ≠ 0) (h2 : region2 ≠ 0)
    (hn : n % T.sizeof = 0) :
    CompareMemoryRegion T m region1 region2 n = 0 ↔
      ∀ i : Nat, i < n / T.sizeof → elem T m region1 i = elem T m region2 i := by
  constructor
  · intro hz
    by_contra hne
    obtain ⟨i, hi⟩ := exists_firstMismatch T m region1 region2 _ hne
    rw [CompareMemoryRegion_mismatch T m region1 region2 n i h1 h2 hn hi] at hz
    have hd := hi.2.1
    cases T with
    | Byte => simp only [subAsInt] at hz; omega
    | Word => simp only [subAsInt] at hz; omega
    | Dword => exact subAsInt_Dword_ne_zero _ _ (load_lt _ _ _) (load_lt _ _ _) hd hz
    | Qword => exact hT rfl
  · exact CompareMemoryRegion_equal T m region1 region2 n h1 h2 hn

/-- C4, at the failing input.  Qword regions of 8 bytes at addresses 8 and 16: the
first holds the element `2 ^ 32` (byte 1 at address 12), the second holds `0`.  The
regions differ, yet `CompareMemoryRegionQword` returns 0, because the 64-bit
difference `2 ^ 32` is converted to the 32-bit `int` result. -/
theorem CompareMemoryRegion_Qword_zero_on_unequal :
    elem .Qword (fun a => if a = 12 then 1 else 0) 8 0 = 2 ^ 32 ∧
    elem .Qword (fun a => if a = 12 then 1 else 0) 16 0 = 0 ∧
    CompareMemoryRegion .Qword (fun a => if a = 12 then 1 else 0) 8 16 8 = 0 := by
  refine ⟨by decide, by decide, ?_⟩
  simp [CompareMemoryRegion, compareLoop, load, loadBytes, subAsInt, toInt32, ElemType.sizeof]

/-- C5, at the failing input.  Dword regions of 4 bytes at addresses 8 and 16: the
first holds the element `2 ^ 31` (byte `0x80` at address 11), the second holds `0`.
The first differing element of region1 is the greater one, yet
`CompareMemoryRegionDword` returns the negative value `-2 ^ 31`. -/
theorem CompareMemoryRegion_Dword_wrong_sign :
    FirstMismatch .Dword (fun a => if a = 11 then 128 else 0) 8 16 1 0 ∧
    elem .Dword (fun a => if a = 11 then 128 else 0) 8 0
      > elem .Dword (fun a => if a = 11 then 128 else 0) 16 0 ∧
    CompareMemoryRegion .Dword (fun a => if a = 11 then 128 else 0) 8 16 4 = -2 ^ 31 := by
  refine ⟨by decide, by decide, ?_⟩
  simp [CompareMemoryRegion, compareLoop, load, loadBytes, subAsInt, toInt32, ElemType.sizeof]
  decide

/-- C6. For the Byte and Word element types, non-null regions and a byte length `n`
that is a multiple of the element width, Compare returns the exact integer difference
`region1[i] - region2[i]` at the first index `i` where the elements differ, and 0 when
no element below `n / sizeof` differs. -/
theorem CompareMemoryRegion_exact_difference (T : ElemType) (hT : T = .Byte ∨ T = .Word)
    (m : Mem) (region1 region2 : Int) (n : Nat) (h1 : region1 ≠ 0) (h2 : region2 ≠ 0)
    (hn : n % T.sizeof = 0) :
    (∀ i : Nat, FirstMismatch T m region1 region2 (n / T.sizeof) i →
      CompareMemoryRegion T m region1 region2 n
        = (elem T m region1 i : Int) - (elem T m region2 i : Int)) ∧
    ((∀ i : Nat, i < n / T.sizeof → elem T m region1 i = elem T m region2 i) →
      CompareMemoryRegion T m region1 region2 n = 0) := by
  refine ⟨?_, CompareMemoryRegion_equal T m region1 region2 n h1 h2 hn⟩
  intro i hi
  rw [CompareMemoryRegion_mismatch T m region1 region2 n i h1 h2 hn hi,
    subAsInt_narrow T hT]

/-- C6 at the scenario of the specification: Byte regions `[1,2,3,4]` and `[1,2,9,4]`,
length 4; the first mismatch is at index 2 and the result is `3 - 9 = -6`. -/
theorem CompareMemoryRegion_exact_difference_witness :
    (16 : Int) ≠ 0 ∧ (32 : Int) ≠ 0 ∧ 4 % ElemType.Byte.sizeof = 0 ∧
    FirstMismatch .Byte compareScenario 16 32 (4 / ElemType.Byte.sizeof) 2 ∧
    CompareMemoryRegion .Byte compareScenario 16 32 4 = -6 :=
  ⟨by decide, by decide, by decide, by decide,
    ((CompareMemoryRegion_exact_difference .Byte (Or.inl rfl) compareScenario 16 32 4
      (by decide) (by decide) (by decide)).1 2 (by decide)).trans (by decide)⟩

/-! ## Reverse -/

theorem reverseLoop_spec (T : ElemType) : ∀ (c : Nat) (m : Mem) (s : Int),
    (∀ x : Int, x < s ∨ s + (c : Int) * (T.sizeof : Int) ≤ x →
      reverseLoop T m s (s + (c : Int) * (T.sizeof : Int) - (T.sizeof : Int)) x = m x) ∧
    (∀ i i' j : Nat, i + i' + 1 = c → j < T.sizeof →
      reverseLoop T m s (s + (c : Int) * (T.sizeof : Int) - (T.sizeof : Int))
        (s + (i : Int) * (T.sizeof : Int) + (j : Int))
        = m (s + (i' : Int) * (T.sizeof : Int) + (j : Int))) := by
  have hW := T.sizeof_cast_pos
  intro c
  induction c using Nat.strong_induction_on with
  | _ c ih =>
    intro m s
    match c, ih with
    | 0, _ =>
      rw [reverseLoop, if_neg (by simp)]
      exact ⟨fun _ _ => rfl, fun i i' j h _ => by omega⟩
    | 1, _ =>
      rw [reverseLoop, if_neg (by simp)]
      refine ⟨fun _ _ => rfl, fun i i' j h _ => ?_⟩
      have hi : i = 0 := by omega
      have hi' : i' = 0 := by omega
      rw [hi, hi']
    | c + 2, ih =>
      have hc : (0 : Int) ≤ (c : Int) * (T.sizeof : Int) := by positivity
      have e : s + ((c + 2 : Nat) : Int) * (T.sizeof : Int) - (T.sizeof : Int)
          = s + (T.sizeof : Int) + (c : Int) * (T.sizeof : Int) := by push_cast; ring
      have e2 : s + ((c + 2 : Nat) : Int) * (T.sizeof : Int)
          = s + (T.sizeof : Int) + (c : Int) * (T.sizeof : Int) + (T.sizeof : Int) := by
        push_cast; ring
      have e3 : s + (T.sizeof : Int) + (c : Int) * (T.sizeof : Int) - (T.sizeof : Int)
          = (s + (T.sizeof : Int)) + (c : Int) * (T.sizeof : Int) - (T.sizeof : Int) := rfl
      rw [e, e2, reverseLoop, if_pos (by omega), e3]
      generalize hE : s + (T.sizeof : Int) + (c : Int) * (T.sizeof : Int) = E
      obtain ⟨hframe, hperm⟩ := ih c (by omega)
        (store T (store T m s (load T m E)) E (load T m s)) (s + (T.sizeof : Int))
      rw [hE] at hframe hperm
      refine ⟨?_, ?_⟩
      · intro x hx
        rw [hframe x (by omega), store_outside T _ E _ x (by omega),
          store_outside T m s _ x (by omega)]
      · intro i i' j hii hj
        rcases Nat.eq_zero_or_pos i with hi0 | hipos
        · -- the first slot receives the last element
          have hi' : i' = c + 1 := by omega
          have a1 : s + (i : Int) * (T.sizeof : Int) + (j : Int) = s + (j : Int) := by
            rw [hi0]; simp
          have a2 : s + (i' : Int) * (T.sizeof : Int) + (j : Int) = E + (j : Int) := by
            rw [hi', ← hE]; push_cast; ring
          rw [a1, a2, hframe _ (by omega), store_outside T _ E _ _ (by omega)]
          exact store_load_byte T m m s E j hj
        · rcases Nat.eq_zero_or_pos i' with hi0' | hipos'
          · -- the last slot receives the first element
            have hi : i = c + 1 := by omega
            have a1 : s + (i : Int) * (T.sizeof : Int) + (j : Int) = E + (j : Int) := by
              rw [hi, ← hE]; push_cast; ring
            have a2 : s + (i' : Int) * (T.sizeof : Int) + (j : Int) = s + (j : Int) := by
              rw [hi0']; simp
            rw [a1, a2, hframe _ (by omega)]
            exact store_load_byte T _ m E s j hj
          · -- an inner slot is handled by the remaining iterations
            obtain ⟨a, rfl⟩ : ∃ a, i = a + 1 := ⟨i - 1, by omega⟩
            obtain ⟨b, rfl⟩ : ∃ b, i' = b + 1 := ⟨i' - 1, by omega⟩
            have hab : a + b + 1 = c := by omega
            have hle := mul_succ_le b c (T.sizeof : Int) (le_of_lt hW) (by omega)
            have hb0 : (0 : Int) ≤ (b : Int) * (T.sizeof : Int) := by positivity
            have a1 : ∀ t : Nat, s + ((t + 1 : Nat) : Int) * (T.sizeof : Int) + (j : Int)
                = s + (T.sizeof : Int) + (t : Int) * (T.sizeof : Int) + (j : Int) := by
              intro t; push_cast; ring
            rw [a1 a, a1 b, hperm a b j hab hj, store_outside T _ E _ _ (by omega),
              store_outside T m s _ _ (by omega)]

theorem ReverseMemoryRegion_spec (T : ElemType) (m : Mem) (memoryRegion : Int) (n : Nat)
    (hnull : memoryRegion ≠ 0) (hn : n % T.sizeof = 0) :
    (∀ x : Int, x < memoryRegion ∨ memoryRegion + (n : Int) ≤ x →
      ReverseMemoryRegion T m memoryRegion n x = m x) ∧
    (∀ i i' j : Nat, i + i' + 1 = n / T.sizeof → j < T.sizeof →
      ReverseMemoryRegion T m memoryRegion n
        (memoryRegion + (i : Int) * (T.sizeof : Int) + (j : Int))
        = m (memoryRegion + (i' : Int) * (T.sizeof : Int) + (j : Int))) := by
  unfold ReverseMemoryRegion
  rw [if_neg hnull, cast_length_eq T n hn]
  exact reverseLoop_spec T (n / T.sizeof) m memoryRegion

/-- C7. Reverse: for each of the four element types, a non-null region and a byte
length `n` that is a multiple of the element width, with `k = n / sizeof`, after
`ReverseMemoryRegion` element `i` of the region equals the original element
`k - 1 - i` for every `i < k`, and every byte at offset `n` or more is unchanged. -/
theorem ReverseMemoryRegion_reverses (T : ElemType) (m : Mem) (memoryRegion : Int) (n : Nat)
    (hnull : memoryRegion ≠ 0) (hn : n % T.sizeof = 0) :
    (∀ i : Nat, i < n / T.sizeof →
      elem T (ReverseMemoryRegion T m memoryRegion n) memoryRegion i
        = elem T m memoryRegion (n / T.sizeof - 1 - i)) ∧
    (∀ off : Nat, n ≤ off →
      ReverseMemoryRegion T m memoryRegion n (memoryRegion + (off : Int))
        = m (memoryRegion + (off : Int))) := by
  obtain ⟨hframe, hperm⟩ := ReverseMemoryRegion_spec T m memoryRegion n hnull hn
  refine ⟨?_, ?_⟩
  · intro i hi
    exact load_congr T _ m _ _ (fun j hj => hperm i (n / T.sizeof - 1 - i) j (by omega) hj)
  · intro off hoff
    exact hframe _ (by omega)

/-- C7 at the scenario of the specification: the Word region of byte length 6 holding
`[1,2,3]` becomes `[3,2,1]`. -/
theorem ReverseMemoryRegion_reverses_witness :
    (16 : Int) ≠ 0 ∧ 6 % ElemType.Word.sizeof = 0 ∧
    elem .Word reverseScenario 16 0 = 1 ∧ elem .Word reverseScenario 16 1 = 2 ∧
    elem .Word reverseScenario 16 2 = 3 ∧
    elem .Word (ReverseMemoryRegion .Word reverseScenario 16 6) 16 0 = 3 ∧
    elem .Word (ReverseMemoryRegion .Word reverseScenario 16 6) 16 1 = 2 ∧
    elem .Word (ReverseMemoryRegion .Word reverseScenario 16 6) 16 2 = 1 :=
  ⟨by decide, by decide, by decide, by decide, by decide,
    ((ReverseMemoryRegion_reverses .Word reverseScenario 16 6 (by decide) (by decide)).1 0
      (by decide)).trans (by decide),
    ((ReverseMemoryRegion_reverses .Word reverseScenario 16 6 (by decide) (by decide)).1 1
      (by decide)).trans (by decide),
    ((ReverseMemoryRegion_reverses .Word reverseScenario 16 6 (by decide) (by decide)).1 2
      (by decide)).trans (by decide)⟩

theorem offset_split (T : ElemType) (p x : Int) (c : Nat)
    (h1 : p ≤ x) (h2 : x < p + (c : Int) * (T.sizeof : Int)) :
    ∃ i j : Nat, i < c ∧ j < T.sizeof ∧
      x = p + (i : Int) * (T.sizeof : Int) + (j : Int) := by
  have hw := T.sizeof_pos
  have htn : ((x - p).toNat : Int) = x - p := Int.toNat_of_nonneg (by omega)
  have hoff : (x - p).toNat < T.sizeof * c := by
    have : ((x - p).toNat : Int) < ((T.sizeof * c : Nat) : Int) := by
      push_cast
      rw [htn, mul_comm]
      omega
    exact_mod_cast this
  refine ⟨(x - p).toNat / T.sizeof, (x - p).toNat % T.sizeof,
    Nat.div_lt_of_lt_mul hoff, Nat.mod_lt _ hw, ?_⟩
  have hsplit := Nat.div_add_mod (x - p).toNat T.sizeof
  have hcast : (((x - p).toNat / T.sizeof : Nat) : Int) * (T.sizeof : Int)
      + (((x - p).toNat % T.sizeof : Nat) : Int) = ((x - p).toNat : Int) := by
    rw [mul_comm]
    exact_mod_cast hsplit
  omega

/-- C8. Reverse is an involution: for each of the four element types, a non-null
region and a byte length `n` that is an exact multiple of the element width, applying
`ReverseMemoryRegion` twice with the same arguments leaves memory exactly as it was
before the first call. -/
theorem ReverseMemoryRegion_involution (T : ElemType) (m : Mem) (memoryRegion : Int)
    (n : Nat) (hnull : memoryRegion ≠ 0) (hn : n % T.sizeof = 0) :
    ReverseMemoryRegion T (ReverseMemoryRegion T m memoryRegion n) memoryRegion n = m := by
  obtain ⟨hframe1, hperm1⟩ := ReverseMemoryRegion_spec T m memoryRegion n hnull hn
  obtain ⟨hframe2, hperm2⟩ :=
    ReverseMemoryRegion_spec T (ReverseMemoryRegion T m memoryRegion n) memoryRegion n hnull hn
  funext x
  by_cases hx : x < memoryRegion ∨ memoryRegion + (n : Int) ≤ x
  · rw [hframe2 x hx, hframe1 x hx]
  · have hnc := cast_length_eq T n hn
    obtain ⟨i, j, hi, hj, rfl⟩ :=
      offset_split T memoryRegion x (n / T.sizeof) (by omega) (by omega)
    rw [hperm2 i (n / T.sizeof - 1 - i) j (by omega) hj,
      hperm1 (n / T.sizeof - 1 - i) i j (by omega) hj]

/-- C8 at a concrete input: reversing the Word region `[1,2,3]` at address 16 twice
restores the memory. -/
theorem ReverseMemoryRegion_involution_witness :
    (16 : Int) ≠ 0 ∧ 6 % ElemType.Word.sizeof = 0 ∧
    ReverseMemoryRegion .Word (ReverseMemoryRegion .Word reverseScenario 16 6) 16 6
      = reverseScenario :=
  ⟨by decide, by decide,
    ReverseMemoryRegion_involution .Word reverseScenario 16 6 (by decide) (by decide)⟩

/-! ## Swap -/

theorem swapLoop_spec (T : ElemType) (r1 r2 : Int) (n : Nat)
    (hdis : r1 + ((n / T.sizeof : Nat) : Int) * (T.sizeof : Int) ≤ r2 ∨
      r2 + ((n / T.sizeof : Nat) : Int) * (T.sizeof : Int) ≤ r1) :
    ∀ (d i : Nat) (m : Mem), i + d = n / T.sizeof →
    (∀ x : Int,
      (x < r1 + (i : Int) * (T.sizeof : Int) ∨
        r1 + ((n / T.sizeof : Nat) : Int) * (T.sizeof : Int) ≤ x) →
      (x < r2 + (i : Int) * (T.sizeof : Int) ∨
        r2 + ((n / T.sizeof : Nat) : Int) * (T.sizeof : Int) ≤ x) →
      swapLoop T r1 r2 n m i x = m x) ∧
    (∀ t j : Nat, i ≤ t → t < n / T.sizeof → j < T.sizeof →
      swapLoop T r1 r2 n m i (r1 + (t : Int) * (T.sizeof : Int) + (j : Int))
        = m (r2 + (t : Int) * (T.sizeof : Int) + (j : Int)) ∧
      swapLoop T r1 r2 n m i (r2 + (t : Int) * (T.sizeof : Int) + (j : Int))
        = m (r1 + (t : Int) * (T.sizeof : Int) + (j : Int))) := by
  have hW := T.sizeof_cast_pos
  generalize hk : n / T.sizeof = k at hdis
  intro d
  induction d with
  | zero =>
    intro i m hi
    rw [swapLoop, if_neg (by omega)]
    exact ⟨fun _ _ _ => rfl, fun t j h1 h2 _ => by omega⟩
  | succ d ih =>
    intro i m hi
    have hik : i < k := by omega
    have hle := mul_succ_le i k (T.sizeof : Int) (le_of_lt hW) hik
    have hi0 : (0 : Int) ≤ (i : Int) * (T.sizeof : Int) := by positivity
    have e : ∀ a : Int, a + ((i + 1 : Nat) : Int) * (T.sizeof : Int)
        = a + (i : Int) * (T.sizeof : Int) + (T.sizeof : Int) := by
      intro a; push_cast; ring
    rw [swapLoop, if_pos (by omega)]
    obtain ⟨hframe, hswap⟩ := ih (i + 1)
      (store T
        (store T m (r1 + (i : Int) * (T.sizeof : Int))
          (load T m (r2 + (i : Int) * (T.sizeof : Int))))
        (r2 + (i : Int) * (T.sizeof : Int))
        (load T m (r1 + (i : Int) * (T.sizeof : Int)))) (by omega)
    rw [e r1, e r2] at hframe
    refine ⟨?_, ?_⟩
    · intro x hx1 hx2
      rw [hframe x (by omega) (by omega), store_outside T _ _ _ x (by omega),
        store_outside T m _ _ x (by omega)]
    · intro t j hit htk hj
      rcases Nat.eq_or_lt_of_le hit with heq | hlt
      · subst heq
        constructor
        · rw [hframe _ (by omega) (by omega), store_outside T _ _ _ _ (by omega)]
          exact store_load_byte T m m _ _ j hj
        · rw [hframe _ (by omega) (by omega)]
          exact store_load_byte T _ m _ _ j hj
      · have hit1 := mul_succ_le i t (T.sizeof : Int) (le_of_lt hW) hlt
        have htk1 := mul_succ_le t k (T.sizeof : Int) (le_of_lt hW) htk
        obtain ⟨ha, hb⟩ := hswap t j (by omega) htk hj
        constructor
        · rw [ha, store_outside T _ _ _ _ (by omega), store_outside T m _ _ _ (by omega)]
        · rw [hb, store_outside T _ _ _ _ (by omega), store_outside T m _ _ _ (by omega)]

theorem swapped_span_le (T : ElemType) (n : Nat) :
    ((n / T.sizeof : Nat) : Int) * (T.sizeof : Int) ≤ (n : Int) := by
  exact_mod_cast Nat.div_mul_le_self n T.sizeof

theorem SwapMemoryRegions_spec (T : ElemType) (m : Mem) (region1 region2 : Int) (n : Nat)
    (h1 : region1 ≠ 0) (h2 : region2 ≠ 0) (hdis : RegionsDisjoint region1 region2 n) :
    (∀ x : Int,
      (x < region1 ∨ region1 + ((n / T.sizeof : Nat) : Int) * (T.sizeof : Int) ≤ x) →
      (x < region2 ∨ region2 + ((n / T.sizeof : Nat) : Int) * (T.sizeof : Int) ≤ x) →
      SwapMemoryRegions T m region1 region2 n x = m x) ∧
    (∀ t j : Nat, t < n / T.sizeof → j < T.sizeof →
      SwapMemoryRegions T m region1 region2 n
          (region1 + (t : Int) * (T.sizeof : Int) + (j : Int))
        = m (region2 + (t : Int) * (T.sizeof : Int) + (j : Int)) ∧
      SwapMemoryRegions T m region1 region2 n
          (region2 + (t : Int) * (T.sizeof : Int) + (j : Int))
        = m (region1 + (t : Int) * (T.sizeof : Int) + (j : Int))) := by
  have hspan := swapped_span_le T n
  unfold RegionsDisjoint at hdis
  unfold SwapMemoryRegions
  rw [if_neg (by simp [h1, h2])]
  obtain ⟨hframe, hswap⟩ :=
    swapLoop_spec T region1 region2 n (by omega) (n / T.sizeof) 0 m (by omega)
  refine ⟨?_, ?_⟩
  · intro x hx1 hx2
    exact hframe x (by simpa using hx1) (by simpa using hx2)
  · intro t j ht hj
    exact hswap t j (Nat.zero_le t) ht hj

/-- C9. Swap: for each of the four element types, non-null and non-overlapping regions
`A` and `B` of `n` bytes (`n` a multiple of the element width or not), with
`k = n / sizeof` rounded down, after `SwapMemoryRegions` element `i` of `A` equals the
original element `i` of `B` and element `i` of `B` equals the original element `i` of
`A` for every `i < k`; every byte of `A` and of `B` at offset `k * sizeof` or more is
unchanged, and so is every byte outside the two swapped spans. -/
theorem SwapMemoryRegions_swaps (T : ElemType) (m : Mem) (A B : Int) (n : Nat)
    (hA : A ≠ 0) (hB : B ≠ 0) (hdis : RegionsDisjoint A B n) :
    (∀ i : Nat, i < n / T.sizeof →
      elem T (SwapMemoryRegions T m A B n) A i = elem T m B i ∧
      elem T (SwapMemoryRegions T m A B n) B i = elem T m A i) ∧
    (∀ off : Nat, n / T.sizeof * T.sizeof ≤ off → off < n →
      SwapMemoryRegions T m A B n (A + (off : Int)) = m (A + (off : Int)) ∧
      SwapMemoryRegions T m A B n (B + (off : Int)) = m (B + (off : Int))) ∧
    (∀ x : Int,
      (x < A ∨ A + ((n / T.sizeof * T.sizeof : Nat) : Int) ≤ x) →
      (x < B ∨ B + ((n / T.sizeof * T.sizeof : Nat) : Int) ≤ x) →
      SwapMemoryRegions T m A B n x = m x) := by
  obtain ⟨hframe, hswap⟩ := SwapMemoryRegions_spec T m A B n hA hB hdis
  have hspan := swapped_span_le T n
  have hcast : ((n / T.sizeof * T.sizeof : Nat) : Int)
      = ((n / T.sizeof : Nat) : Int) * (T.sizeof : Int) := by push_cast; rfl
  unfold RegionsDisjoint at hdis
  refine ⟨?_, ?_, ?_⟩
  · intro i hi
    exact ⟨load_congr T _ m _ _ (fun j hj => (hswap i j hi hj).1),
      load_congr T _ m _ _ (fun j hj => (hswap i j hi hj).2)⟩
  · intro off hlo hhi
    have hlo' : ((n / T.sizeof * T.sizeof : Nat) : Int) ≤ (off : Int) := by
      exact_mod_cast hlo
    rw [hcast] at hlo'
    exact ⟨hframe _ (by omega) (by omega), hframe _ (by omega) (by omega)⟩
  · intro x hx1 hx2
    rw [hcast] at hx1 hx2
    exact hframe x hx1 hx2

/-- C9 at a concrete input: a Dword swap of byte length 6 (one whole element) between
the regions at addresses 16 and 32. -/
theorem SwapMemoryRegions_swaps_witness :
    (16 : Int) ≠ 0 ∧ (32 : Int) ≠ 0 ∧ RegionsDisjoint 16 32 6 ∧
    (∀ i : Nat, i < 6 / ElemType.Dword.sizeof →
      elem .Dword (SwapMemoryRegions .Dword (fun a => if a < 32 then 1 else 2) 16 32 6) 16 i
        = elem .Dword (fun a => if a < 32 then 1 else 2) 32 i ∧
      elem .Dword (SwapMemoryRegions .Dword (fun a => if a < 32 then 1 else 2) 16 32 6) 32 i
        = elem .Dword (fun a => if a < 32 then 1 else 2) 16 i) :=
  ⟨by decide, by decide, by decide,
    (SwapMemoryRegions_swaps .Dword (fun a => if a < 32 then 1 else 2) 16 32 6
      (by decide) (by decide) (by decide)).1⟩

/-- C10. Swap is self-inverse: for each of the four element types, non-null and
non-overlapping regions of `n` bytes and every byte length `n`, applying
`SwapMemoryRegions` twice with the same arguments restores the whole memory, hence the
original contents of both regions. -/
theorem SwapMemoryRegions_self_inverse (T : ElemType) (m : Mem) (A B : Int) (n : Nat)
    (hA : A ≠ 0) (hB : B ≠ 0) (hdis : RegionsDisjoint A B n) :
    SwapMemoryRegions T (SwapMemoryRegions T m A B n) A B n = m := by
  obtain ⟨hframe1, hswap1⟩ := SwapMemoryRegions_spec T m A B n hA hB hdis
  obtain ⟨hframe2, hswap2⟩ :=
    SwapMemoryRegions_spec T (SwapMemoryRegions T m A B n) A B n hA hB hdis
  funext x
  by_cases hxA : x < A ∨ A + ((n / T.sizeof : Nat) : Int) * (T.sizeof : Int) ≤ x
  · by_cases hxB : x < B ∨ B + ((n / T.sizeof : Nat) : Int) * (T.sizeof : Int) ≤ x
    · rw [hframe2 x hxA hxB, hframe1 x hxA hxB]
    · obtain ⟨i, j, hi, hj, rfl⟩ :=
        offset_split T B x (n / T.sizeof) (by omega) (by omega)
      rw [(hswap2 i j hi hj).2, (hswap1 i j hi hj).1]
  · obtain ⟨i, j, hi, hj, rfl⟩ :=
      offset_split T A x (n / T.sizeof) (by omega) (by omega)
    rw [(hswap2 i j hi hj).1, (hswap1 i j hi hj).2]

/-- C10 at a concrete input: swapping the Word regions of 5 bytes at addresses 16 and
32 twice restores the memory. -/
theorem SwapMemoryRegions_self_inverse_witness :
    (16 : Int) ≠ 0 ∧ (32 : Int) ≠ 0 ∧ RegionsDisjoint 16 32 5 ∧
    SwapMemoryRegions .Word (SwapMemoryRegions .Word compareScenario 16 32 5) 16 32 5
      = compareScenario :=
  ⟨by decide, by decide, by decide,
    SwapMemoryRegions_self_inverse .Word compareScenario 16 32 5
      (by decide) (by decide) (by decide)⟩

/-! ## Zero-Fill -/

theorem zeroLoop_eq_setLoop (T : ElemType) (endp : Int) :
    ∀ (k : Nat) (m : Mem) (it : Int), (endp - it).toNat ≤ k →
      zeroLoop T endp m it = setLoop T 0 endp m it := by
  have hW := T.sizeof_cast_pos
  intro k
  induction k with
  | zero =>
    intro m it hk
    rw [zeroLoop, setLoop, if_neg (by omega), if_neg (by omega)]
  | succ k ih =>
    intro m it hk
    rw [zeroLoop, setLoop]
    by_cases h : it < endp
    · rw [if_pos h, if_pos h]
      exact ih _ _ (by omega)
    · rw [if_neg h, if_neg h]

/-- C11. Zero-Fill equals Value-Fill with zero: for each of the four element types,
every region pointer (null or not), every byte length `n` and every initial memory,
`ZeroMemoryRegion(region, n)` and `SetMemoryRegion(region, 0, n)` produce identical
final memory. -/
theorem ZeroMemoryRegion_eq_SetMemoryRegion_zero (T : ElemType) (m : Mem)
    (memoryRegion : Int) (n : Nat) :
    ZeroMemoryRegion T m memoryRegion n = SetMemoryRegion T m memoryRegion 0 n := by
  unfold ZeroMemoryRegion SetMemoryRegion
  by_cases h0 : memoryRegion = 0
  · rw [if_pos h0, if_pos h0]
  · rw [if_neg h0, if_neg h0]
    exact zeroLoop_eq_setLoop T _ _ m memoryRegion (le_refl _)

/-! ## Combined properties -/

theorem elem_offset_lt (T : ElemType) (n i j : Nat) (hn : n % T.sizeof = 0)
    (hi : i < n / T.sizeof) (hj : j < T.sizeof) :
    (0 : Int) ≤ (i : Int) * (T.sizeof : Int) ∧
      (i : Int) * (T.sizeof : Int) + (j : Int) < (n : Int) := by
  have hle := mul_succ_le i (n / T.sizeof) (T.sizeof : Int) (le_of_lt T.sizeof_cast_pos) hi
  have hnc := cast_length_eq T n hn
  have h0 : (0 : Int) ≤ (i : Int) * (T.sizeof : Int) := by positivity
  refine ⟨h0, ?_⟩
  omega

/-- C12. Copy then Compare yields equality: for each of the four element types,
non-null and non-overlapping regions `dest` and `src` and a byte length `n` that is a
multiple of the element width, after `CopyMemoryRegion(dest, src, n)` the call
`CompareMemoryRegion(dest, src, n)` returns 0. -/
theorem Compare_after_Copy (T : ElemType) (m : Mem) (dest src : Int) (n : Nat)
    (hd : dest ≠ 0) (hs : src ≠ 0) (hdis : RegionsDisjoint dest src n)
    (hn : n % T.sizeof = 0) :
    CompareMemoryRegion T (CopyMemoryRegion T m dest src n) dest src n = 0 := by
  obtain ⟨hframe, hcopy⟩ := CopyMemoryRegion_spec T m dest src n hd hs hdis hn
  unfold RegionsDisjoint at hdis
  apply CompareMemoryRegion_equal T _ dest src n hd hs hn
  intro i hi
  apply load_congr
  intro j hj
  obtain ⟨h0, hlt⟩ := elem_offset_lt T n i j hn hi hj
  rw [hcopy i j hi hj, hframe _ (by omega)]

/-- C12 at a concrete input: a Qword copy of 16 bytes from address 64 to address 32,
then the comparison of the two regions. -/
theorem Compare_after_Copy_witness :
    (32 : Int) ≠ 0 ∧ (64 : Int) ≠ 0 ∧ RegionsDisjoint 32 64 16 ∧
    16 % ElemType.Qword.sizeof = 0 ∧
    CompareMemoryRegion .Qword
      (CopyMemoryRegion .Qword (fun a => if a < 64 then 3 else 200) 32 64 16) 32 64 16 = 0 :=
  ⟨by decide, by decide, by decide, by decide,
    Compare_after_Copy .Qword (fun a => if a < 64 then 3 else 200) 32 64 16
      (by decide) (by decide) (by decide) (by decide)⟩

theorem SetMemoryRegion_bytes (T : ElemType) (m : Mem) (memoryRegion : Int) (v n : Nat)
    (hnull : memoryRegion ≠ 0) (hn : n % T.sizeof = 0) :
    (∀ x : Int, x < memoryRegion ∨ memoryRegion + (n : Int) ≤ x →
      SetMemoryRegion T m memoryRegion v n x = m x) ∧
    (∀ i j : Nat, i < n / T.sizeof → j < T.sizeof →
      (SetMemoryRegion T m memoryRegion v n
        (memoryRegion + (i : Int) * (T.sizeof : Int) + (j : Int))).val
        = v / 256 ^ j % 256) := by
  unfold SetMemoryRegion
  rw [if_neg hnull, cast_length_eq T n hn]
  exact setLoop_spec T v (n / T.sizeof) m memoryRegion

/-- C13. Write-Fill and Value-Fill agree under Compare: for each of the four element
types, every value `v`, a byte length `n` that is a multiple of the element width and
non-null, non-overlapping regions `A` and `B`, after `WriteMemoryRegion(A, v, n)` and
`SetMemoryRegion(B, v, n)` the call `CompareMemoryRegion(A, B, n)` returns 0. -/
theorem Compare_after_Write_and_Set (T : ElemType) (m : Mem) (A B : Int) (v n : Nat)
    (hA : A ≠ 0) (hB : B ≠ 0) (hdis : RegionsDisjoint A B n) (hn : n % T.sizeof = 0) :
    CompareMemoryRegion T
      (SetMemoryRegion T (WriteMemoryRegion T m A v n) B v n) A B n = 0 := by
  rw [WriteMemoryRegion_eq_SetMemoryRegion]
  obtain ⟨_, hfillA⟩ := SetMemoryRegion_bytes T m A v n hA hn
  obtain ⟨hframeB, hfillB⟩ :=
    SetMemoryRegion_bytes T (SetMemoryRegion T m A v n) B v n hB hn
  unfold RegionsDisjoint at hdis
  apply CompareMemoryRegion_equal T _ A B n hA hB hn
  intro i hi
  apply load_congr
  intro j hj
  obtain ⟨h0, hlt⟩ := elem_offset_lt T n i j hn hi hj
  apply Fin.ext
  rw [hfillB i j hi hj, hframeB _ (by omega), hfillA i j hi hj]

/-- C13 at a concrete input: Word regions of 6 bytes at addresses 16 and 32, both
filled with `0xBEEF`, then compared. -/
theorem Compare_after_Write_and_Set_witness :
    (16 : Int) ≠ 0 ∧ (32 : Int) ≠ 0 ∧ RegionsDisjoint 16 32 6 ∧
    6 % ElemType.Word.sizeof = 0 ∧
    CompareMemoryRegion .Word
      (SetMemoryRegion .Word (WriteMemoryRegion .Word compareScenario 16 0xBEEF 6)
        32 0xBEEF 6) 16 32 6 = 0 :=
  ⟨by decide, by decide, by decide, by decide,
    Compare_after_Write_and_Set .Word compareScenario 16 32 0xBEEF 6
      (by decide) (by decide) (by decide) (by decide)⟩

/-! ## Null pointers -/

/-- C14. Null-pointer handling: for each of the four element types and every byte
length, Write-Fill, Zero-Fill, Value-Fill and Reverse called with a null region, and
Copy and Swap called with either pointer null, leave all memory unchanged; Compare
called with either region null returns -1, a negative value (Compare only reads
memory). -/
theorem null_pointer_handling (T : ElemType) (m : Mem) (p : Int) (v n : Nat) :
    WriteMemoryRegion T m 0 v n = m ∧
    ZeroMemoryRegion T m 0 n = m ∧
    SetMemoryRegion T m 0 v n = m ∧
    ReverseMemoryRegion T m 0 n = m ∧
    CopyMemoryRegion T m 0 p n = m ∧
    CopyMemoryRegion T m p 0 n = m ∧
    SwapMemoryRegions T m 0 p n = m ∧
    SwapMemoryRegions T m p 0 n = m ∧
    CompareMemoryRegion T m 0 p n = -1 ∧
    CompareMemoryRegion T m p 0 n = -1 ∧
    (-1 : Int) < 0 := by
  simp [WriteMemoryRegion, ZeroMemoryRegion, SetMemoryRegion, ReverseMemoryRegion,
    CopyMemoryRegion, SwapMemoryRegions, CompareMemoryRegion]

/-! ## Zero length and lengths that are not a multiple of the element width -/

/-- C15, refuted as stated: a Byte Write-Fill of value 7 with byte length 0 at the
non-null address 16 of an all-zero memory does not write an element; the first slot
still holds 0. -/
theorem WriteMemoryRegion_zero_length_counterexample :
    (16 : Int) ≠ 0 ∧ 7 < ElemType.Byte.range ∧
    elem .Byte (WriteMemoryRegion .Byte (fun _ => 0) 16 7 0) 16 0 ≠ 7 := by
  refine ⟨by decide, by decide, ?_⟩
  have h : WriteMemoryRegion .Byte (fun _ => 0) 16 7 0 = (fun _ => 0) := by
    simp [WriteMemoryRegion]
  rw [h]
  decide

/-- C15, amended. Write-Fill with byte length exactly 0: for each of the four element
types and every value `v`, `WriteMemoryRegion` called with a non-null region and byte
length 0 returns at the `memoryIterator == endMemoryRegion` guard and leaves all
memory unchanged; no element is written. -/
theorem WriteMemoryRegion_zero_length (T : ElemType) (m : Mem) (memoryRegion : Int)
    (v : Nat) (hnull : memoryRegion ≠ 0) :
    WriteMemoryRegion T m memoryRegion v 0 = m := by
  unfold WriteMemoryRegion
  rw [if_neg hnull, if_pos (by simp)]

/-- C15 amended, at a concrete input: a Qword Write-Fill of length 0 at address 64. -/
theorem WriteMemoryRegion_zero_length_witness :
    (64 : Int) ≠ 0 ∧ WriteMemoryRegion .Qword reverseScenario 64 5 0 = reverseScenario :=
  ⟨by decide, WriteMemoryRegion_zero_length .Qword reverseScenario 64 5 (by decide)⟩

/-- C16, at the failing input. Word instances called with byte length 3 at address
16: one whole element fits, yet the loops run a second pass on the trailing partial
slot and store to address 19, which is offset 3, at or beyond the byte length. -/
theorem fills_and_copy_write_past_length :
    ElemType.Word.sizeof * (3 / ElemType.Word.sizeof) = 2 ∧
    SetMemoryRegion .Word (fun _ => 0) 16 0xFFFF 3 19 = 255 ∧
    WriteMemoryRegion .Word (fun _ => 0) 16 0xFFFF 3 19 = 255 ∧
    ZeroMemoryRegion .Word (fun _ => 255) 16 3 19 = 0 ∧
    CopyMemoryRegion .Word (fun a => if a < 32 then 0 else 9) 16 32 3 19 = 9 := by
  refine ⟨by decide, ?_, ?_, ?_, ?_⟩
  · simp [SetMemoryRegion, setLoop, store, ElemType.sizeof]
  · simp [WriteMemoryRegion, writeLoop, store, ElemType.sizeof]
  · simp [ZeroMemoryRegion, zeroLoop, store, ElemType.sizeof]
  · simp [CopyMemoryRegion, copyLoop, store, load, loadBytes, ElemType.sizeof]
    decide

theorem reverseLoop_exit (T : ElemType) (m : Mem) (start endp : Int) (h : endp ≤ start) :
    reverseLoop T m start endp = m := by
  rw [reverseLoop, if_neg (by omega)]

/-- Reverse on a byte length of at most one element width changes nothing. -/
theorem ReverseMemoryRegion_at_most_width (T : ElemType) (m : Mem) (memoryRegion : Int)
    (n : Nat) (hn : n ≤ T.sizeof) : ReverseMemoryRegion T m memoryRegion n = m := by
  unfold ReverseMemoryRegion
  split
  · rfl
  · exact reverseLoop_exit T m _ _ (by omega)

/-- C17, at the failing input. A Word region of byte length 3 at address 16 holding
the bytes 1, 2, 3 has one whole element, yet `ReverseMemoryRegionWord` exchanges the
overlapping 2-byte slots at addresses 16 and 17 and leaves the bytes 2, 1, 2. -/
theorem ReverseMemoryRegion_partial_element_changes :
    3 / ElemType.Word.sizeof ≤ 1 ∧
    (fun a => if a = 16 then 1 else if a = 17 then 2 else if a = 18 then 3 else 0 : Mem) 16
      = 1 ∧
    ReverseMemoryRegion .Word
      (fun a => if a = 16 then 1 else if a = 17 then 2 else if a = 18 then 3 else 0)
      16 3 16 = 2 ∧
    ReverseMemoryRegion .Word
      (fun a => if a = 16 then 1 else if a = 17 then 2 else if a = 18 then 3 else 0)
      16 3 17 = 1 ∧
    ReverseMemoryRegion .Word
      (fun a => if a = 16 then 1 else if a = 17 then 2 else if a = 18 then 3 else 0)
      16 3 18 = 2 := by
  refine ⟨by decide, by decide, ?_, ?_, ?_⟩
  · simp [ReverseMemoryRegion, reverseLoop, store, load, loadBytes, ElemType.sizeof]
  · simp [ReverseMemoryRegion, reverseLoop, store, load, loadBytes, ElemType.sizeof]
  · simp [ReverseMemoryRegion, reverseLoop, store, load, loadBytes, ElemType.sizeof]

/-- C18, at the failing input. Word regions at addresses 16 and 32 compared with byte
length 3: the all-zero memory and the memory that differs from it only in the byte at
address 19 (offset 3 of region1, beyond the byte length) give different results,
because the loop runs a second pass on the trailing partial slot. -/
theorem CompareMemoryRegion_reads_past_length :
    ElemType.Word.sizeof * (3 / ElemType.Word.sizeof) = 2 ∧
    (∀ a : Int, a ≠ 19 → (fun a => if a = 19 then 1 else 0 : Mem) a = (fun _ => 0 : Mem) a) ∧
    CompareMemoryRegion .Word (fun _ => 0) 16 32 3 = 0 ∧
    CompareMemoryRegion .Word (fun a => if a = 19 then 1 else 0) 16 32 3 = 256 := by
  refine ⟨by decide, ?_, ?_, ?_⟩
  · intro a ha
    simp [ha]
  · simp [CompareMemoryRegion, compareLoop, load, loadBytes, subAsInt, ElemType.sizeof]
  · simp [CompareMemoryRegion, compareLoop, load, loadBytes, subAsInt, ElemType.sizeof]

/-! ## Compare on the wide element types -/

theorem toInt32_spec (x : Int) :
    (toInt32 x - x) % 2 ^ 32 = 0 ∧ -2 ^ 31 ≤ toInt32 x ∧ toInt32 x < 2 ^ 31 := by
  unfold toInt32
  norm_num
  split <;> omega

theorem subAsInt_wide (T : ElemType) (hT : T = .Dword ∨ T = .Qword) (a b : Nat) :
    subAsInt T a b = toInt32 ((a : Int) - (b : Int)) := by
  rcases hT with h | h <;> subst h <;> simp only [subAsInt, toInt32] <;> norm_num

/-- C19. Wide-element Compare wraps: for the Dword and Qword element types, non-null
regions and a byte length `n` that is a multiple of the width, if `i` is the first
index where the elements differ then the result is `region1[i] - region2[i]` reduced
modulo `2 ^ 32` into the signed 32-bit range (it is congruent to the difference modulo
`2 ^ 32` and lies between `-2 ^ 31` and `2 ^ 31 - 1`); a Dword comparison of differing
regions is therefore never 0, but the sign can be wrong: there is a Dword input with
`region1[0] < region2[0]` and a positive result. -/
theorem CompareMemoryRegion_wide_wraps (T : ElemType) (hT : T = .Dword ∨ T = .Qword)
    (m : Mem) (region1 region2 : Int) (n i : Nat) (h1 : region1 ≠ 0) (h2 : region2 ≠ 0)
    (hn : n % T.sizeof = 0) (hi : FirstMismatch T m region1 region2 (n / T.sizeof) i) :
    CompareMemoryRegion T m region1 region2 n
      = toInt32 ((elem T m region1 i : Int) - (elem T m region2 i : Int)) ∧
    (CompareMemoryRegion T m region1 region2 n
      - ((elem T m region1 i : Int) - (elem T m region2 i : Int))) % 2 ^ 32 = 0 ∧
    -2 ^ 31 ≤ CompareMemoryRegion T m region1 region2 n ∧
    CompareMemoryRegion T m region1 region2 n < 2 ^ 31 ∧
    (T = .Dword → CompareMemoryRegion T m region1 region2 n ≠ 0) ∧
    (∃ m' : Mem, elem .Dword m' 16 0 < elem .Dword m' 32 0 ∧
      0 < CompareMemoryRegion .Dword m' 16 32 4) := by
  have hres := CompareMemoryRegion_mismatch T m region1 region2 n i h1 h2 hn hi
  have hwide := subAsInt_wide T hT (elem T m region1 i) (elem T m region2 i)
  obtain ⟨hmod, hlo, hhi⟩ :=
    toInt32_spec ((elem T m region1 i : Int) - (elem T m region2 i : Int))
  refine ⟨by rw [hres, hwide], by rw [hres, hwide]; exact hmod, by rw [hres, hwide]; exact hlo,
    by rw [hres, hwide]; exact hhi, ?_, ?_⟩
  · intro hD
    subst hD
    rw [hres]
    exact subAsInt_Dword_ne_zero _ _ (load_lt _ _ _) (load_lt _ _ _) hi.2.1
  · refine ⟨fun a => if a = 32 then 1 else if a = 35 then 128 else 0, by decide, ?_⟩
    simp [CompareMemoryRegion, compareLoop, load, loadBytes, subAsInt, toInt32,
      ElemType.sizeof]
    decide

/-- C19 at a concrete input: Dword regions at addresses 16 and 32 holding 0 and
`0x80000001`; the first mismatch is at index 0. -/
theorem CompareMemoryRegion_wide_wraps_witness :
    (16 : Int) ≠ 0 ∧ (32 : Int) ≠ 0 ∧ 4 % ElemType.Dword.sizeof = 0 ∧
    FirstMismatch .Dword (fun a => if a = 32 then 1 else if a = 35 then 128 else 0) 16 32
      (4 / ElemType.Dword.sizeof) 0 ∧
    CompareMemoryRegion .Dword (fun a => if a = 32 then 1 else if a = 35 then 128 else 0)
        16 32 4
      = toInt32 ((elem .Dword (fun a => if a = 32 then 1 else if a = 35 then 128 else 0)
          16 0 : Int)
        - (elem .Dword (fun a => if a = 32 then 1 else if a = 35 then 128 else 0)
          32 0 : Int)) :=
  ⟨by decide, by decide, by decide, by decide,
    (CompareMemoryRegion_wide_wraps .Dword (Or.inl rfl)
      (fun a => if a = 32 then 1 else if a = 35 then 128 else 0) 16 32 4 0
      (by decide) (by decide) (by decide) (by decide)).1⟩

/-! ## Write-Fill and Value-Fill -/

/-- C20. Write-Fill and Value-Fill are the same function: for each of the four element
types, every region pointer (null or not), every value `v`, every byte length `n`
(zero, positive, multiple of the width or not) and every initial memory,
`WriteMemoryRegion(region, v, n)` and `SetMemoryRegion(region, v, n)` produce identical
final memory; in particular the do-while loop entered after the
`memoryIterator == endMemoryRegion` check computes what the while loop computes. -/
theorem WriteMemoryRegion_same_as_SetMemoryRegion (T : ElemType) (m : Mem)
    (memoryRegion : Int) (v n : Nat) :
    WriteMemoryRegion T m memoryRegion v n = SetMemoryRegion T m memoryRegion v n :=
  WriteMemoryRegion_eq_SetMemoryRegion T m memoryRegion v n

/-! ## Forward Copy on overlapping regions -/

theorem copyLoop_forward (T : ElemType) (c : Nat) : ∀ (m : Mem) (d s : Int), d ≤ s →
    (∀ x : Int, x < d ∨ d + (c : Int) * (T.sizeof : Int) ≤ x →
      copyLoop T (s + (c : Int) * (T.sizeof : Int)) m d s x = m x) ∧
    (∀ i j : Nat, i < c → j < T.sizeof →
      copyLoop T (s + (c : Int) * (T.sizeof : Int)) m d s
        (d + (i : Int) * (T.sizeof : Int) + (j : Int))
        = m (s + (i : Int) * (T.sizeof : Int) + (j : Int))) := by
  have hW := T.sizeof_cast_pos
  induction c with
  | zero =>
    intro m d s _
    rw [copyLoop, if_neg (by simp)]
    exact ⟨fun _ _ => rfl, fun i j hi _ => absurd hi (Nat.not_lt_zero i)⟩
  | succ c ih =>
    intro m d s hds
    have hc : (0 : Int) ≤ (c : Int) * (T.sizeof : Int) := by positivity
    have e : ∀ a : Int, a + ((c + 1 : Nat) : Int) * (T.sizeof : Int)
        = (a + (T.sizeof : Int)) + (c : Int) * (T.sizeof : Int) := by
      intro a; push_cast; ring
    rw [copyLoop, if_pos (by rw [e]; omega), e s]
    obtain ⟨hframe, hcopy⟩ := ih (store T m d (load T m s)) (d + (T.sizeof : Int))
      (s + (T.sizeof : Int)) (by omega)
    refine ⟨?_, ?_⟩
    · intro x hx
      rw [e d] at hx
      rw [hframe x (by omega), store_outside T m d _ x (by omega)]
    · intro i j hi hj
      cases i with
      | zero =>
        -- the first slot is written by this pass and by no later one
        have hd0 : d + ((0 : Nat) : Int) * (T.sizeof : Int) + (j : Int) = d + (j : Int) := by
          simp
        have hs0 : s + ((0 : Nat) : Int) * (T.sizeof : Int) + (j : Int) = s + (j : Int) := by
          simp
        rw [hd0, hs0, hframe (d + (j : Int)) (by omega)]
        exact store_load_byte T m m d s j hj
      | succ i =>
        -- a later source slot lies above the slot written by this pass
        have hi0 : (0 : Int) ≤ (i : Int) * (T.sizeof : Int) := by positivity
        have hx : ∀ a : Int, a + ((i + 1 : Nat) : Int) * (T.sizeof : Int) + (j : Int)
            = a + (T.sizeof : Int) + (i : Int) * (T.sizeof : Int) + (j : Int) := by
          intro a; push_cast; ring
        rw [hx d, hx s, hcopy i j (Nat.lt_of_succ_lt_succ hi) hj]
        exact store_outside T m d _ _ (by omega)

theorem CopyMemoryRegion_forward_spec (T : ElemType) (m : Mem) (dest src : Int) (n : Nat)
    (hd : dest ≠ 0) (hs : src ≠ 0) (hle : dest ≤ src) (hn : n % T.sizeof = 0) :
    (∀ x : Int, x < dest ∨ dest + (n : Int) ≤ x →
      CopyMemoryRegion T m dest src n x = m x) ∧
    (∀ i j : Nat, i < n / T.sizeof → j < T.sizeof →
      CopyMemoryRegion T m dest src n (dest + (i : Int) * (T.sizeof : Int) + (j : Int))
        = m (src + (i : Int) * (T.sizeof : Int) + (j : Int))) := by
  unfold CopyMemoryRegion
  rw [if_neg (by simp [hd, hs]), cast_length_eq T n hn]
  exact copyLoop_forward T (n / T.sizeof) m dest src hle

/-- C21. Forward Copy is safe when the destination starts at or below the source: for
each of the four element types, a byte length `n` that is a multiple of the element
width and non-null regions of one memory with `dest ≤ src` (overlapping or not), after
`CopyMemoryRegion(dest, src, n)` element `i` of `dest` equals the original element `i`
of `src` for every `i < n / sizeof`.  For an overlapping input with `dest > src` this
can fail: there are an element type, a memory, a source, the destination
`src + sizeof` and a length of at least two elements for which some destination
element differs from the original source element. -/
theorem CopyMemoryRegion_forward_overlap (T : ElemType) (m : Mem) (dest src : Int) (n : Nat)
    (hd : dest ≠ 0) (hs : src ≠ 0) (hle : dest ≤ src) (hn : n % T.sizeof = 0) :
    (∀ i : Nat, i < n / T.sizeof →
      elem T (CopyMemoryRegion T m dest src n) dest i = elem T m src i) ∧
    (∃ (T' : ElemType) (m' : Mem) (src' : Int) (n' i' : Nat),
      src' ≠ 0 ∧ n' % T'.sizeof = 0 ∧ 2 * T'.sizeof ≤ n' ∧ i' < n' / T'.sizeof ∧
      elem T' (CopyMemoryRegion T' m' (src' + (T'.sizeof : Int)) src' n')
          (src' + (T'.sizeof : Int)) i'
        ≠ elem T' m' src' i') := by
  obtain ⟨_, hcopy⟩ := CopyMemoryRegion_forward_spec T m dest src n hd hs hle hn
  refine ⟨fun i hi => load_congr T _ m _ _ (fun j hj => hcopy i j hi hj), ?_⟩
  refine ⟨.Byte, fun a => if a = 16 then 1 else if a = 17 then 2 else 3, 16, 2, 1,
    by decide, by decide, by decide, by decide, ?_⟩
  simp [CopyMemoryRegion, copyLoop, elem, load, loadBytes, store, ElemType.sizeof]

/-- C21 at a concrete input: a Word copy of 6 bytes from address 18 down to the
overlapping destination at address 16. -/
theorem CopyMemoryRegion_forward_overlap_witness :
    (16 : Int) ≠ 0 ∧ (18 : Int) ≠ 0 ∧ (16 : Int) ≤ 18 ∧ 6 % ElemType.Word.sizeof = 0 ∧
    (∀ i : Nat, i < 6 / ElemType.Word.sizeof →
      elem .Word (CopyMemoryRegion .Word reverseScenario 16 18 6) 16 i
        = elem .Word reverseScenario 18 i) :=
  ⟨by decide, by decide, by decide, by decide,
    (CopyMemoryRegion_forward_overlap .Word reverseScenario 16 18 6
      (by decide) (by decide) (by decide) (by decide)).1⟩

end MemoryUtils
